import Mathlib

/-!
# Verification of the in-memory spreadsheet engine

Shallow embedding of the repository's spreadsheet engine: the cell-address
codec (`ParseCellID`, `decodeRowExpr`), the formula tokenizer and
recursive-descent parser, the expression evaluator, the bidirectional
dependency graph and the refresh engine (BFS for root referrers, DFS
topological sort with cycle detection).

Modelling conventions:
* Go `int` is modelled as unbounded `Int` (all inputs in the claims are far
  from 64-bit overflow).
* Go maps of sets (`map[CellID]struct{}`) are modelled as duplicate-free
  `List CellID`; Go's nondeterministic map iteration order is fixed to
  insertion order.
* Go runtime panics (index out of range) are modelled explicitly by a
  `panic` result constructor; fallible functions return `Except`-style
  results.
* The recursive DFS/BFS of the source terminate because the graph is
  finite; the embedding makes this explicit with a recursion budget sized
  from a ghost `dom` field (a superset of every cell the sheet has touched).
  The budget is generous enough that the `fuelOut` outcome never occurs on
  the runs the claims are about.
-/

namespace Spreadsheets

/-- CellID represents a column and row of our spreadsheet
(src/unnamed/part_004, `type CellID struct`): both fields zero-indexed. -/
structure CellID where
  row : Int
  column : Int
deriving DecidableEq, Repr

/-- The sentinel error values of the source: `ErrParseCellID`, `ErrValueType`,
`ErrExprParse`, `ErrCircRef`, plus the two bare `fmt.Errorf` errors of the
parser ("expected ')'" and "unexpected end of expression"). -/
inductive Err where
  | parseCellID
  | valueType
  | exprParse
  | circRef
  | expectedRPar
  | unexpectedEnd
deriving DecidableEq, Repr

instance {ε α : Type} [DecidableEq ε] [DecidableEq α] : DecidableEq (Except ε α) := fun a b =>
  match a, b with
  | .error e, .error f =>
    if h : e = f then .isTrue (by rw [h]) else .isFalse (by intro hc; cases hc; exact h rfl)
  | .error _, .ok _ => .isFalse (by intro hc; cases hc)
  | .ok _, .error _ => .isFalse (by intro hc; cases hc)
  | .ok x, .ok y =>
    if h : x = y then .isTrue (by rw [h]) else .isFalse (by intro hc; cases hc; exact h rfl)

/-- `between` is true iff target lies between lb (lower bound) and ub (upper
bound) (src/unnamed/part_001 `between`). -/
def between (target lb ub : Char) : Bool :=
  lb ≤ target && target ≤ ub

/-- An ASCII uppercase letter, `[A-Z]`. -/
def isUpperC (c : Char) : Bool := between c 'A' 'Z'

/-- An ASCII decimal digit, `[0-9]`. -/
def isDigitC (c : Char) : Bool := between c '0' '9'

/-- Model of `cellRegexp.FindStringSubmatch` for the unanchored pattern
`([A-Z]+)([0-9]+)` (src/unnamed/part_004 `cellRegexp`): scan for the leftmost
position whose maximal run of uppercase letters is immediately followed by at
least one digit; return the letter group and the (maximal) digit group.
Go's regexp engine returns the leftmost match; greediness of `[A-Z]+` cannot
give up letters (a shorter letter run is still followed by a letter, not a
digit), so this scan is exactly the regexp's behaviour. -/
def findCellMatch : List Char → Option (List Char × List Char)
  | [] => none
  | c :: rest =>
    if isUpperC c then
      let L := (c :: rest).takeWhile isUpperC
      let r := (c :: rest).dropWhile isUpperC
      let D := r.takeWhile isDigitC
      if D = [] then findCellMatch rest else some (L, D)
    else findCellMatch rest

/-- Two's-complement wraparound of Go's 64-bit `int`: the unique value in
`[-2^63, 2^63)` congruent to `n` modulo `2^64` (`%` on `Int` is the
nonnegative Euclidean remainder). -/
def wrap64 (n : Int) : Int :=
  (n + 9223372036854775808) % 18446744073709551616 - 9223372036854775808

/-- decodeRowExpr decodes a 'base-26' row expression into its equivalent
integer, returning an error if it is unable to do so
(src/unnamed/part_004 `decodeRowExpr`): every rune must be in `A`..`Z`;
the rune list is reversed and summed with an increasing power of 26
(digit `A`=1 .. `Z`=26), minus one at the end. The source's own TODO notes
that 64-bit overflow is unchecked: each `int` multiplication, addition and
the final subtraction wrap, modelled by `wrap64`. -/
def decodeRowExpr (l : List Char) : Except Err Int :=
  if l.all (fun c => between c 'A' 'Z') then
    .ok (wrap64 ((l.reverse.foldl
      (fun (p : Int × Int) c =>
        (wrap64 (p.1 + wrap64 (((c.toNat : Int) - ('A'.toNat : Int) + 1) * p.2)),
          wrap64 (p.2 * 26)))
      (0, 1)).1 - 1))
  else .error .parseCellID

/-- Model of `strconv.Atoi` restricted to the inputs this code ever feeds
it: a token or regexp group (no sign, no empty string beyond the explicit
check). Succeeds on nonempty all-digit strings whose decimal value fits a
64-bit `int`; larger values fail with `strconv`'s range error, as in Go. -/
def atoi (l : List Char) : Option Int :=
  if l ≠ [] && l.all isDigitC then
    if l.foldl (fun acc c => acc * 10 + ((c.toNat : Int) - ('0'.toNat : Int))) 0
        ≤ 9223372036854775807 then
      some (l.foldl (fun acc c => acc * 10 + ((c.toNat : Int) - ('0'.toNat : Int))) 0)
    else none
  else none

/-- ParseCellID parses the provided string as a CellID, returning an error if
it is unable to do so (src/unnamed/part_004 `ParseCellID`): run the
(unanchored) regexp; fail if there is no match; decode group 1 as the row,
group 2 minus one as the column. -/
def ParseCellID (str : String) : Except Err CellID :=
  match findCellMatch str.toList with
  | none => .error .parseCellID
  | some (rowExpr, colExpr) =>
    match decodeRowExpr rowExpr with
    | .error _ => .error .parseCellID
    | .ok rowIdx =>
      match atoi colExpr with
      | none => .error .parseCellID
      | some colIdx => .ok ⟨rowIdx, colIdx - 1⟩

/-- The expression tree (src/unnamed/part_001): the Go interface `Expr` with
its four concrete structs `UnaryExpr`, `BinaryExpr`, `ConstExpr`,
`CellRefExpr`, as a closed tagged union. `Token` is a string in the source;
operator fields keep that representation. -/
inductive Expr where
  | unary (X : Expr) (Op : String)
  | binary (X : Expr) (Op : String) (Y : Expr)
  | const (Value : Int)
  | cellRef (Ref : CellID)
deriving DecidableEq, Repr

def TokenAdd : String := "+"
def TokenSub : String := "-"
def TokenMul : String := "*"
def TokenDiv : String := "/"
def TokenRPar : String := ")"
def TokenLPar : String := "("

/-- CellRefs retrieves all cell references which are found in the expression
(src/unnamed/part_001 `CellRefs`). Note the Go type switch has no
`UnaryExpr` case, so references below a unary operator fall through to
`return nil`. -/
def CellRefs : Expr → List CellID
  | .binary X _ Y =>
    let r := CellRefs Y
    if r = [] then CellRefs X else CellRefs X ++ r
  | .const _ => []
  | .cellRef ref => [ref]
  | .unary _ _ => []

/-- Result of a tokenizer/parser run. `panic` models a Go runtime panic
(index out of range); `fuelOut` is the model's recursion budget running out,
which does not happen for the budgets used below. -/
inductive PRes (α : Type) where
  | panic
  | fuelOut
  | err (e : Err)
  | ok (a : α)
deriving DecidableEq, Repr

/-- Helper of `skipWs`: walk the suffix `runes[i:]` while tracking the
absolute index. Running off the end means the loop condition read
`runes[len]`: a panic, modelled by `none`. -/
def skipWsGo : List Char → Nat → Option Nat
  | [], _ => none
  | c :: rest, i => if c = ' ' then skipWsGo rest (i + 1) else some i

/-- The tokenizer's inner whitespace skip, `for runes[i] == ' ' { i++ }`
(src/unnamed/part_001 `tokenize`): no bounds check, so reaching the end of
the slice reads `runes[len]` and panics; `none` models that panic. -/
def skipWs (runes : List Char) (i : Nat) : Option Nat :=
  skipWsGo (runes.drop i) i

/-- Helper of `runEnd`: walk the suffix while `p` holds, tracking the
absolute index (this loop does bounds-check: `for i < len(runes) && p(...)`). -/
def runEndGo (p : Char → Bool) : List Char → Nat → Nat
  | [], i => i
  | c :: rest, i => if p c then runEndGo p rest (i + 1) else i

/-- First index `≥ i` at which `p` fails (or the length), i.e. the value of
`i` after `for i < len(runes) && p(runes[i]) { i++ }`. -/
def runEnd (runes : List Char) (p : Char → Bool) (i : Nat) : Nat :=
  runEndGo p (runes.drop i) i

/-- `Token(runes[start:stop])`. -/
def sliceStr (runes : List Char) (start stop : Nat) : String :=
  String.mk ((runes.drop start).take (stop - start))

/-- Main tokenizer loop, `for i := 1; i < len(runes); i++ { ... }`
(src/unnamed/part_001 `tokenize` / src/internal/expr.go `tokenize`; the two
differ only in which single characters `runeMap` accepts, passed here as
`opChars`). Per iteration: skip spaces (may panic past the end), then a
digit run, an identifier run (uppercase start, letters/digits continue), a
single operator character, or a parse error. -/
def tokenizeLoop (opChars : List Char) (runes : List Char) :
    Nat → Nat → List String → PRes (List String)
  | 0, _, _ => .fuelOut
  | fuel + 1, i, acc =>
    if i < runes.length then
      match skipWs runes i with
      | none => .panic
      | some j =>
        match runes.get? j with
        | none => .panic
        | some c =>
          if isDigitC c then
            let e := runEnd runes isDigitC j
            tokenizeLoop opChars runes fuel e (acc ++ [sliceStr runes j e])
          else if isUpperC c then
            let e := runEnd runes (fun ch => isDigitC ch || isUpperC ch) j
            tokenizeLoop opChars runes fuel e (acc ++ [sliceStr runes j e])
          else if c ∈ opChars then
            tokenizeLoop opChars runes fuel (j + 1) (acc ++ [String.mk [c]])
          else .err .exprParse
    else .ok acc

/-- The characters of `runeMap` in src/unnamed/part_001. -/
def opChars1 : List Char := ['+', '-', '*', '/', '(', ')']

/-- tokenize (src/unnamed/part_001): reads `runes[0]` with no bounds check
(panics on the empty string), requires it to be `=`, then runs the loop. -/
def tokenize (str : String) : PRes (List String) :=
  let runes := str.toList
  match runes.get? 0 with
  | none => .panic
  | some c =>
    if c ≠ '=' then .err .exprParse
    else tokenizeLoop opChars1 runes (runes.length + 1) 1 []

/-- The binary-operator token sets of `parseTerm` and `parseFactor`. -/
def termOps : List String := [TokenAdd, TokenSub]

def factorOps : List String := [TokenMul, TokenDiv]

mutual

/-- parseExpr parses out an entire expression (src/unnamed/part_001
`parseExpr`): it is `parseTerm`. Fueled: every recursive descent step
consumes one unit; the top-level caller passes a budget large enough that
`fuelOut` cannot occur. -/
def parseExprP : Nat → List String → PRes (Expr × List String)
  | 0, _ => .fuelOut
  | fuel + 1, tokens => parseTermP fuel tokens

/-- parseTerm parses out addition and subtraction
(src/unnamed/part_001 `parseTerm` = `parseBinExpr(tokens, {+,-}, parseFactor)`):
parse the LHS with `parseFactor`, then fold further factors left-to-right. -/
def parseTermP : Nat → List String → PRes (Expr × List String)
  | 0, _ => .fuelOut
  | fuel + 1, tokens =>
    match parseFactorP fuel tokens with
    | .ok (expr, rest) => parseTermLoop fuel expr rest
    | .panic => .panic
    | .fuelOut => .fuelOut
    | .err e => .err e

/-- The `for ok { ... }` loop of `parseBinExpr` specialised to term
operators: while the next token is `+` or `-`, parse another factor and fold
it into a left-leaning `BinaryExpr`. -/
def parseTermLoop : Nat → Expr → List String → PRes (Expr × List String)
  | 0, _, _ => .fuelOut
  | fuel + 1, expr, rest =>
    match rest with
    | [] => .ok (expr, [])
    | token :: rest1 =>
      if token ∈ termOps then
        match parseFactorP fuel rest1 with
        | .ok (Y, rest2) => parseTermLoop fuel (.binary expr token Y) rest2
        | .panic => .panic
        | .fuelOut => .fuelOut
        | .err e => .err e
      else .ok (expr, token :: rest1)

/-- parseFactor parses out multiplication and division
(src/unnamed/part_001 `parseFactor` = `parseBinExpr(tokens, {*,/}, parseUnary)`). -/
def parseFactorP : Nat → List String → PRes (Expr × List String)
  | 0, _ => .fuelOut
  | fuel + 1, tokens =>
    match parseUnaryP fuel tokens with
    | .ok (expr, rest) => parseFactorLoop fuel expr rest
    | .panic => .panic
    | .fuelOut => .fuelOut
    | .err e => .err e

/-- The `for ok { ... }` loop of `parseBinExpr` specialised to factor
operators. -/
def parseFactorLoop : Nat → Expr → List String → PRes (Expr × List String)
  | 0, _, _ => .fuelOut
  | fuel + 1, expr, rest =>
    match rest with
    | [] => .ok (expr, [])
    | token :: rest1 =>
      if token ∈ factorOps then
        match parseUnaryP fuel rest1 with
        | .ok (Y, rest2) => parseFactorLoop fuel (.binary expr token Y) rest2
        | .panic => .panic
        | .fuelOut => .fuelOut
        | .err e => .err e
      else .ok (expr, token :: rest1)

/-- parseUnary parses out unary operators (src/unnamed/part_001
`parseUnary`): a leading `-` recurses, folding a `ConstExpr` operand into a
negated constant ("small optimization to shorten the tree"). -/
def parseUnaryP : Nat → List String → PRes (Expr × List String)
  | 0, _ => .fuelOut
  | fuel + 1, tokens =>
    match tokens with
    | [] => .err .exprParse
    | t :: rest =>
      if t = TokenSub then
        match parseUnaryP fuel rest with
        | .ok (X, rest1) =>
          match X with
          | .const v => .ok (.const (-v), rest1)
          | _ => .ok (.unary X TokenSub, rest1)
        | .panic => .panic
        | .fuelOut => .fuelOut
        | .err e => .err e
      else parsePrimaryP fuel tokens

/-- parsePrimary parses out primary expressions (src/unnamed/part_001
`parsePrimary`): try the token as a cell address, then as an integer
literal, then as a parenthesised sub-expression (requiring the matching
`)`), else fail naming the token. -/
def parsePrimaryP : Nat → List String → PRes (Expr × List String)
  | 0, _ => .fuelOut
  | fuel + 1, tokens =>
    match tokens with
    | [] => .err .exprParse
    | t :: rest =>
      match ParseCellID t with
      | .ok cellID => .ok (.cellRef cellID, rest)
      | .error _ =>
        match atoi t.toList with
        | some v => .ok (.const v, rest)
        | none =>
          if t = TokenLPar then
            match parseExprP fuel rest with
            | .ok (expr, rest1) =>
              match rest1 with
              | [] => .err .expectedRPar
              | r :: rest2 =>
                if r = TokenRPar then .ok (expr, rest2) else .err .expectedRPar
            | .panic => .panic
            | .fuelOut => .fuelOut
            | .err e => .err e
          else .err .exprParse

end

/-- ParseExpr parses the provided string into an Expr (src/unnamed/part_001
`ParseExpr`): tokenize, parse, and require that every token was consumed
("unexpected end of expression" otherwise). -/
def ParseExpr (str : String) : PRes Expr :=
  match tokenize str with
  | .ok tokens =>
    match parseExprP (5 * tokens.length + 5) tokens with
    | .ok (expr, rest) => if rest = [] then .ok expr else .err .unexpectedEnd
    | .panic => .panic
    | .fuelOut => .fuelOut
    | .err e => .err e
  | .panic => .panic
  | .fuelOut => .fuelOut
  | .err e => .err e

namespace IE

/-!
Embedding of src/internal/expr.go: the older parser of the package
`internal` kept under `src/internal/`. It shares the token/expression
representation above but differs from src/unnamed/part_001 in three ways:
its `runeMap` has no parentheses, `parseUnary2` never folds a negated
constant, and `parsePrimary2` has no parenthesis branch.
-/

/-- The characters of `runeMap` in src/internal/expr.go: `+ - * /` only. -/
def opChars : List Char := ['+', '-', '*', '/']

/-- tokenize (src/internal/expr.go): identical loop to the one in
src/unnamed/part_001 (including the two unchecked index accesses), with the
smaller `runeMap`. -/
def tokenize (str : String) : PRes (List String) :=
  let runes := str.toList
  match runes.get? 0 with
  | none => .panic
  | some c =>
    if c ≠ '=' then .err .exprParse
    else tokenizeLoop opChars runes (runes.length + 1) 1 []

mutual

/-- parseTerm (src/internal/expr.go): LHS via `parseFactor2`, then fold
`+`/`-` repetitions left-to-right into `BinaryExpr` nodes. -/
def parseTerm : Nat → List String → PRes (Expr × List String)
  | 0, _ => .fuelOut
  | fuel + 1, tokens =>
    match parseFactor2 fuel tokens with
    | .ok (expr, rest) => parseTermLoop fuel expr rest
    | .panic => .panic
    | .fuelOut => .fuelOut
    | .err e => .err e

/-- The `for ok { ... }` loop of `parseTerm`. -/
def parseTermLoop : Nat → Expr → List String → PRes (Expr × List String)
  | 0, _, _ => .fuelOut
  | fuel + 1, expr, rest =>
    match rest with
    | [] => .ok (expr, [])
    | token :: rest1 =>
      if token ∈ termOps then
        match parseFactor2 fuel rest1 with
        | .ok (Y, rest2) => parseTermLoop fuel (.binary expr token Y) rest2
        | .panic => .panic
        | .fuelOut => .fuelOut
        | .err e => .err e
      else .ok (expr, token :: rest1)

/-- parseFactor2 (src/internal/expr.go): LHS via `parseUnary2`, then fold
`*`/`/` repetitions left-to-right. -/
def parseFactor2 : Nat → List String → PRes (Expr × List String)
  | 0, _ => .fuelOut
  | fuel + 1, tokens =>
    match parseUnary2 fuel tokens with
    | .ok (expr, rest) => parseFactorLoop fuel expr rest
    | .panic => .panic
    | .fuelOut => .fuelOut
    | .err e => .err e

/-- The `for ok { ... }` loop of `parseFactor2`. -/
def parseFactorLoop : Nat → Expr → List String → PRes (Expr × List String)
  | 0, _, _ => .fuelOut
  | fuel + 1, expr, rest =>
    match rest with
    | [] => .ok (expr, [])
    | token :: rest1 =>
      if token ∈ factorOps then
        match parseUnary2 fuel rest1 with
        | .ok (Y, rest2) => parseFactorLoop fuel (.binary expr token Y) rest2
        | .panic => .panic
        | .fuelOut => .fuelOut
        | .err e => .err e
      else .ok (expr, token :: rest1)

/-- parseUnary2 (src/internal/expr.go): a leading `-` always builds a
`UnaryExpr` node (no constant folding here). -/
def parseUnary2 : Nat → List String → PRes (Expr × List String)
  | 0, _ => .fuelOut
  | fuel + 1, tokens =>
    match tokens with
    | [] => .err .exprParse
    | t :: _ =>
      if t = TokenSub then
        match parseUnary2 fuel tokens.tail with
        | .ok (X, rest1) => .ok (.unary X TokenSub, rest1)
        | .panic => .panic
        | .fuelOut => .fuelOut
        | .err e => .err e
      else parsePrimary2 fuel tokens

/-- parsePrimary2 (src/internal/expr.go): a token is a cell address or an
integer literal; anything else (there is no parenthesis case) is an
"unexpected token" error. -/
def parsePrimary2 : Nat → List String → PRes (Expr × List String)
  | 0, _ => .fuelOut
  | _ + 1, tokens =>
    match tokens with
    | [] => .err .exprParse
    | t :: rest =>
      match ParseCellID t with
      | .ok cellID => .ok (.cellRef cellID, rest)
      | .error _ =>
        match atoi t.toList with
        | some v => .ok (.const v, rest)
        | none => .err .exprParse

end

/-- parseExpr (src/internal/expr.go): `parseTerm`, then require all tokens
consumed ("unexpected end of expression" otherwise). -/
def parseExpr (tokens : List String) : PRes Expr :=
  match parseTerm (5 * tokens.length + 5) tokens with
  | .ok (expr, rest) => if rest = [] then .ok expr else .err .unexpectedEnd
  | .panic => .panic
  | .fuelOut => .fuelOut
  | .err e => .err e

/-- ParseExpr (src/internal/expr.go): tokenize then parse. -/
def ParseExpr (str : String) : PRes Expr :=
  match tokenize str with
  | .ok tokens => parseExpr tokens
  | .panic => .panic
  | .fuelOut => .fuelOut
  | .err e => .err e

end IE

/-! ## The spreadsheet engine (src/unnamed/part_004) -/

/-- Cell represents a single cell of a spreadsheet
(src/unnamed/part_004 `type Cell struct`). -/
structure Cell where
  currValue : Int
  expr : Option Expr
deriving DecidableEq, Repr

/-- Spreadsheet (src/unnamed/part_004 `type Spreadsheet struct`): the cell
store and the two adjacency maps. Map-of-set values are duplicate-free lists
in insertion order (Go's map iteration order is unspecified; this fixes one
admissible order). `dom` is a ghost field of the model only: a finite
superset of every CellID the sheet has ever touched, used solely to size the
recursion budgets of the BFS and DFS below. -/
structure Sheet where
  cells : CellID → Option Cell
  refersTo : CellID → List CellID
  referredFrom : CellID → List CellID
  dom : List CellID

/-- NewSpreadsheet (src/unnamed/part_004): empty maps. -/
def NewSpreadsheet : Sheet :=
  { cells := fun _ => none, refersTo := fun _ => [], referredFrom := fun _ => [], dom := [] }

/-- Insertion into a Go set-valued map entry: a no-op when already present. -/
def insertIfAbsent (l : List CellID) (x : CellID) : List CellID :=
  if x ∈ l then l else l ++ [x]

/-- addCellReferral adds edges to the graph so that source refers to target
(src/unnamed/part_004 `addCellReferral`). -/
def addCellReferral (s : Sheet) (source target : CellID) : Sheet :=
  { s with
    refersTo := Function.update s.refersTo source (insertIfAbsent (s.refersTo source) target)
    referredFrom :=
      Function.update s.referredFrom target (insertIfAbsent (s.referredFrom target) source)
    dom := insertIfAbsent (insertIfAbsent s.dom source) target }

/-- evalExpr evaluates the provided expression
(src/unnamed/part_004 `evalExpr`): unary minus negates; `+ - *` are the
integer operations; `/` is Go's truncated integer division with the
division-by-zero guard returning 0; missing cells read as 0; any other
shape returns the fall-through 0. `Int.tdiv` is truncation toward zero,
matching Go's `/` on `int`. -/
def evalExpr (s : Sheet) : Expr → Int
  | .unary X op => if op = TokenSub then -(evalExpr s X) else 0
  | .binary X op Y =>
    let x := evalExpr s X
    let y := evalExpr s Y
    if op = TokenAdd then x + y
    else if op = TokenMul then x * y
    else if op = TokenSub then x - y
    else if op = TokenDiv then
      if y = 0 then 0 else Int.tdiv x y
    else 0
  | .const v => v
  | .cellRef ref =>
    match s.cells ref with
    | some cell => cell.currValue
    | none => 0

/-- eval evaluates the value of the provided cell
(src/unnamed/part_004 `eval`). -/
def eval (s : Sheet) (cellID : CellID) : Int :=
  match s.cells cellID with
  | none => 0
  | some cell =>
    match cell.expr with
    | none => cell.currValue
    | some e => evalExpr s e

/-- The first half of `refresh`'s graph update: "unset referredFrom refs and
clear out refersTo refs" — delete the backward edge of every current
outgoing reference, then `maps.Clear(s.refersTo[cid])`. -/
def clearOldEdges (s : Sheet) (cellID : CellID) : Sheet :=
  { s with
    referredFrom :=
      (s.refersTo cellID).foldl
        (fun rf ref => Function.update rf ref ((rf ref).filter (fun x => !decide (x = cellID))))
        s.referredFrom
    refersTo := Function.update s.refersTo cellID [] }

/-- The second half of `refresh`'s graph update: "update the graph with new
refs" — one `addCellReferral` per collected reference. -/
def updateEdges (s : Sheet) (cellID : CellID) (e : Expr) : Sheet :=
  (CellRefs e).foldl (fun s ref => addCellReferral s cellID ref) (clearOldEdges s cellID)

/-- One step of `refresh`'s re-evaluation loop:
`if cell, ok := s.cells[cid]; ok { cell.currValue = s.eval(cid) }`. -/
def reevalCell (s : Sheet) (cellID : CellID) : Sheet :=
  match s.cells cellID with
  | none => s
  | some cell =>
    { s with cells := Function.update s.cells cellID (some { cell with currValue := eval s cellID }) }

/-- State of the BFS of `rootReferrers`: frontier, seen set, collected start
cells. The loop pops the frontier head; a popped cell with no referrers is a
start cell; unseen referrers are pushed and marked seen. `none` is the
model's budget running out (never reached for the budget used). -/
def bfsRoots (s : Sheet) : Nat → List CellID → List CellID → List CellID → Option (List CellID)
  | _, [], _, startCells => some startCells
  | 0, _ :: _, _, _ => none
  | fuel + 1, curr :: frontier, seen, startCells =>
    let startCells1 := if s.referredFrom curr = [] then startCells ++ [curr] else startCells
    let step :=
      (s.referredFrom curr).foldl
        (fun (p : List CellID × List CellID) referer =>
          if referer ∈ p.2 then p else (p.1 ++ [referer], p.2 ++ [referer]))
        (frontier, seen)
    bfsRoots s fuel step.1 step.2 startCells1

/-- rootReferrers retrieves all unreferenced cells which transitively refer
to cid (src/unnamed/part_004 `rootReferrers`): BFS over `referredFrom` from
cid; if no start cell is found, the mutated cell itself is the sole root. -/
def rootReferrers (s : Sheet) (cellID : CellID) : Option (List CellID) :=
  match bfsRoots s (s.dom.length + 2) [cellID] [cellID] [] with
  | none => none
  | some startCells => some (if startCells = [] then [cellID] else startCells)

/-- The three-state DFS state of `topSort`: `temp` are in-progress nodes,
`perm` finished nodes, `result` the accumulated topological order. -/
structure TState where
  perm : List CellID
  temp : List CellID
  result : List CellID
deriving DecidableEq, Repr

/-- Result of the DFS: a cycle was found, the budget ran out (model
artifact, never reached for the budget used), or the final state. -/
inductive SortRes where
  | fuelOut
  | cycle
  | ok (st : TState)
deriving DecidableEq, Repr

/-- The recursive `visit` closure of `topSort` (src/unnamed/part_004),
applied in turn to a worklist: a permanently marked node is skipped; a
temporarily marked node is a circular reference; otherwise the node is
temp-marked, its `refersTo` neighbors are visited, and the node is
perm-marked and appended to the result. -/
def visitMany (rt : CellID → List CellID) : Nat → List CellID → TState → SortRes
  | _, [], st => .ok st
  | 0, _ :: _, _ => .fuelOut
  | fuel + 1, curr :: rest, st =>
    if curr ∈ st.perm then visitMany rt fuel rest st
    else if curr ∈ st.temp then .cycle
    else
      match visitMany rt fuel (rt curr) { st with temp := curr :: st.temp } with
      | .ok st2 =>
        visitMany rt fuel rest
          { perm := curr :: st2.perm
            temp := st2.temp.erase curr
            result := st2.result ++ [curr] }
      | .fuelOut => .fuelOut
      | .cycle => .cycle

/-- Result of `topSort`: the order, a circular-reference error (`ErrCircRef`),
or the model's budget running out. -/
inductive TopRes where
  | fuelOut
  | cycle
  | ok (order : List CellID)
deriving DecidableEq, Repr

/-- topSort (src/unnamed/part_004): visit each start node with shared
marks; only nodes reachable from the start nodes are sorted. -/
def topSort (s : Sheet) (startNodes : List CellID) : TopRes :=
  match visitMany s.refersTo ((s.dom.length + 2) * (s.dom.length + 2)) startNodes ⟨[], [], []⟩ with
  | .ok st => .ok st.result
  | .cycle => .cycle
  | .fuelOut => .fuelOut

/-- Outcome of `refresh`, carrying the spreadsheet state at that point
(on a circular-reference error the edges written by the graph update
remain, as in the source). -/
inductive RefRes where
  | fuelOut (s : Sheet)
  | circ (s : Sheet)
  | ok (s : Sheet)

/-- The spreadsheet state carried by a `refresh` outcome. -/
def RefRes.state : RefRes → Sheet
  | .fuelOut s => s
  | .circ s => s
  | .ok s => s

/-- The graph-update phase of `refresh`: performed only when the cell holds
an expression (`if cell.expr != nil`). -/
def refreshGraph (s : Sheet) (cellID : CellID) (cell : Cell) : Sheet :=
  match cell.expr with
  | some e => updateEdges s cellID e
  | none => s

/-- The re-evaluation phase of `refresh`: walk the topological order,
recomputing every cell present in the store. -/
def reevalAll (s : Sheet) (order : List CellID) : Sheet :=
  order.foldl reevalCell s

/-- refresh (src/unnamed/part_004): if the cell holds an expression, replace
its outgoing edges by the references of that expression; compute the root
referrers; topologically sort from them (failing on a cycle); re-evaluate
every stored cell in the resulting order. -/
def refresh (s : Sheet) (cellID : CellID) : RefRes :=
  match s.cells cellID with
  | none => .ok s
  | some cell =>
    let s1 := refreshGraph s cellID cell
    match rootReferrers s1 cellID with
    | none => .fuelOut s1
    | some roots =>
      match topSort s1 roots with
      | .fuelOut => .fuelOut s1
      | .cycle => .circ s1
      | .ok order => .ok (reevalAll s1 order)

/-- The `val any` argument of `SetCellValue`: an int, a string, or any other
type (rejected with `ErrValueType`). -/
inductive Val where
  | int (n : Int)
  | str (s : String)
  | other

/-- Outcome of `SetCellValue`, carrying the spreadsheet state afterwards
(`panic` is a Go runtime panic escaping the call; `fuelOut` is the model's
recursion budget, never reached on the runs below). -/
inductive SetRes where
  | panic (s : Sheet)
  | fuelOut (s : Sheet)
  | err (e : Err) (s : Sheet)
  | ok (s : Sheet)

/-- The spreadsheet state carried by a `SetCellValue` outcome. -/
def SetRes.state : SetRes → Sheet
  | .panic s => s
  | .fuelOut s => s
  | .err _ s => s
  | .ok s => s

/-- The tail of `SetCellValue`: `return s.refresh(cid)`. -/
def finishRefresh (s : Sheet) (cellID : CellID) : SetRes :=
  match refresh s cellID with
  | .ok s1 => .ok s1
  | .circ s1 => .err .circRef s1
  | .fuelOut s1 => .fuelOut s1

/-- SetCellValue (src/unnamed/part_004): parse the address; create the cell
if absent; for an int, unset the expression and set the value; for a string,
parse it (aborting on error), store the expression and zero the value; any
other value type is an error; finally refresh. -/
def SetCellValue (s : Sheet) (cellID : String) (val : Val) : SetRes :=
  match ParseCellID cellID with
  | .error e => .err e s
  | .ok cid =>
    let s0 : Sheet :=
      { s with
        cells :=
          match s.cells cid with
          | none => Function.update s.cells cid (some ⟨0, none⟩)
          | some _ => s.cells
        dom := insertIfAbsent s.dom cid }
    match val with
    | .int n =>
      finishRefresh { s0 with cells := Function.update s0.cells cid (some ⟨n, none⟩) } cid
    | .str fstr =>
      match ParseExpr fstr with
      | .panic => .panic s0
      | .fuelOut => .fuelOut s0
      | .err e => .err e s0
      | .ok e =>
        finishRefresh { s0 with cells := Function.update s0.cells cid (some ⟨0, some e⟩) } cid
    | .other => .err .valueType s0

/-- GetCellValue (src/unnamed/part_004): parse the address; missing cells
read 0; otherwise the pre-computed `currValue`. -/
def GetCellValue (s : Sheet) (cellID : String) : Except Err Int :=
  match ParseCellID cellID with
  | .error e => .error e
  | .ok cid =>
    match s.cells cid with
    | none => .ok 0
    | some cell => .ok cell.currValue

/-! ## Running sequences of mutations -/

/-- The spreadsheet state after a `SetCellValue` call, whatever its outcome
(on an error the source has already applied its partial writes). -/
def applyOp (s : Sheet) (op : String × Val) : Sheet :=
  (SetCellValue s op.1 op.2).state

/-- The state reached from a fresh spreadsheet by a sequence of
`SetCellValue` calls. -/
def runOps (ops : List (String × Val)) : Sheet :=
  ops.foldl applyOp NewSpreadsheet

/-- Whether a `SetCellValue` call succeeds. -/
def opOk (s : Sheet) (op : String × Val) : Bool :=
  match SetCellValue s op.1 op.2 with
  | .ok _ => true
  | _ => false

/-- Whether every call of a sequence succeeds, starting from `s`. -/
def allOkFrom : Sheet → List (String × Val) → Bool
  | _, [] => true
  | s, op :: rest => opOk s op && allOkFrom (applyOp s op) rest

/-- Whether a `SetCellValue` call fails with `ErrCircRef`. -/
def isCircErr : SetRes → Bool
  | .err .circRef _ => true
  | _ => false

/-- Whether a `SetCellValue` call panics. -/
def isPanicRes : SetRes → Bool
  | .panic _ => true
  | _ => false

/-- The stored expression of a cell (`nil` when absent or a raw value). -/
def exprOf (s : Sheet) (c : CellID) : Option Expr :=
  match s.cells c with
  | some cell => cell.expr
  | none => none

/-- The cached value of a cell (missing cells read 0). -/
def valueOf (s : Sheet) (c : CellID) : Int :=
  match s.cells c with
  | some cell => cell.currValue
  | none => 0

/-! ## Concrete scenarios from the specification -/

/-- The reference chain of §8: `A1="=A2"`, …, `A6="=A7"`, `A7=12`. -/
def chainOps : List (String × Val) :=
  [("A1", .str "=A2"), ("A2", .str "=A3"), ("A3", .str "=A4"), ("A4", .str "=A5"),
   ("A5", .str "=A6"), ("A6", .str "=A7"), ("A7", .int 12)]

/-- The fifteen successful calls of the big-cycle test:
`A1="=A2"`, …, `A15="=A16"`; the ring is closed afterwards by
`A15="=A1"`. -/
def ringOps : List (String × Val) :=
  [("A1", .str "=A2"), ("A2", .str "=A3"), ("A3", .str "=A4"), ("A4", .str "=A5"),
   ("A5", .str "=A6"), ("A6", .str "=A7"), ("A7", .str "=A8"), ("A8", .str "=A9"),
   ("A9", .str "=A10"), ("A10", .str "=A11"), ("A11", .str "=A12"), ("A12", .str "=A13"),
   ("A13", .str "=A14"), ("A14", .str "=A15"), ("A15", .str "=A16")]

/-! ## Specification-side definitions

These definitions follow the words of the specification (not the source);
they exist to be compared with the source-derived definitions above. -/

/-- The bijective base-26 value of a letter run, following the spec:
"decoded as a bijective base-26 numeral (A=1, …, Z=26, AA=27, …)". -/
def bij26 (l : List Char) : Int :=
  l.foldl (fun acc c => acc * 26 + ((c.toNat : Int) - ('A'.toNat : Int) + 1)) 0

/-- The decimal value of a digit run, following the spec: "the digit run is
parsed as a 1-indexed decimal integer". -/
def decVal (l : List Char) : Int :=
  l.foldl (fun acc c => acc * 10 + ((c.toNat : Int) - ('0'.toNat : Int))) 0

/-- The largest bijective base-26 value of a letter run of the given
length (all `Z`s): `bij26Max k = 26 + 26^2 + … + 26^k`. Used to bound the
intermediate values of `decodeRowExpr`'s fold. -/
def bij26Max : Nat → Int
  | 0 => 0
  | k + 1 => 26 * bij26Max k + 26

/-- Whether a string has "the shape of one or more uppercase letters
followed by one or more decimal digits" (the claim's notion of a
well-formed address): an uppercase prefix, then only digits, nothing else. -/
def wellShapedB (s : String) : Bool :=
  let l := s.toList
  let L := l.takeWhile isUpperC
  let r := l.dropWhile isUpperC
  !L.isEmpty && !r.isEmpty && r.all isDigitC

/-- Whether a character list contains an uppercase letter immediately
followed by a digit. This is equivalent to containing a substring of the
shape `[A-Z]+[0-9]+`: any such substring ends its letter run against its
first digit, and conversely such an adjacent pair is itself a substring of
that shape. -/
def hasUDpair : List Char → Bool
  | a :: b :: rest => (isUpperC a && isDigitC b) || hasUDpair (b :: rest)
  | _ => false

/-- The mutual-inverse invariant of the two adjacency maps (§3 of the
spec): `b ∈ referredFrom[a]` iff `a ∈ refersTo[b]`. -/
def InvGraph (s : Sheet) : Prop :=
  ∀ a b : CellID, b ∈ s.referredFrom a ↔ a ∈ s.refersTo b

/-- The forward-edge invariant: every cell currently holding an expression
has exactly the edges collected by `CellRefs` from that expression. -/
def InvRefs (s : Sheet) : Prop :=
  ∀ c e, exprOf s c = some e → ∀ x, x ∈ s.refersTo c ↔ x ∈ CellRefs e

/-- A topological order for `rt`: every entry's references that made it into
the order appear strictly earlier ("dependencies before dependents"). -/
def OrderedFor (rt : CellID → List CellID) (res : List CellID) : Prop :=
  ∀ i c, res.get? i = some c → ∀ d ∈ rt c, d ∈ res.take i

/-! ## Lemmas: membership in the set-valued map entries -/

theorem mem_insertIfAbsent {l : List CellID} {x y : CellID} :
    x ∈ insertIfAbsent l y ↔ x ∈ l ∨ x = y := by
  unfold insertIfAbsent
  by_cases h : y ∈ l
  · simp only [if_pos h]
    constructor
    · exact Or.inl
    · rintro (hx | rfl)
      · exact hx
      · exact h
  · simp [if_neg h, List.mem_append]

theorem filter_idem {α : Type} (p : α → Bool) (l : List α) :
    (l.filter p).filter p = l.filter p := by
  induction l with
  | nil => rfl
  | cons a t ih =>
    by_cases h : p a <;> simp [List.filter_cons, h, ih]

/-- The `for ref := range s.refersTo[cid] { delete(...) }` loop: its effect
on the backward map at any point `a`. -/
theorem foldDel_apply (cid : CellID) (L : List CellID) (rf : CellID → List CellID) (a : CellID) :
    (L.foldl
      (fun rf ref => Function.update rf ref ((rf ref).filter (fun x => !decide (x = cid)))) rf) a
      = if a ∈ L then (rf a).filter (fun x => !decide (x = cid)) else rf a := by
  induction L generalizing rf with
  | nil => simp
  | cons r L ih =>
    simp only [List.foldl_cons]
    rw [ih]
    by_cases har : a = r
    · subst har
      by_cases haL : a ∈ L <;>
        simp [haL, Function.update_same, filter_idem, List.mem_cons]
    · by_cases haL : a ∈ L <;>
        simp [haL, har, Function.update_noteq har, List.mem_cons]

theorem clearOldEdges_refersTo (s : Sheet) (cid : CellID) :
    (clearOldEdges s cid).refersTo = Function.update s.refersTo cid [] := rfl

theorem clearOldEdges_cells (s : Sheet) (cid : CellID) :
    (clearOldEdges s cid).cells = s.cells := rfl

theorem clearOldEdges_referredFrom (s : Sheet) (cid a : CellID) :
    (clearOldEdges s cid).referredFrom a
      = if a ∈ s.refersTo cid then (s.referredFrom a).filter (fun x => !decide (x = cid))
        else s.referredFrom a :=
  foldDel_apply cid (s.refersTo cid) s.referredFrom a

theorem addCellReferral_cells (s : Sheet) (src tgt : CellID) :
    (addCellReferral s src tgt).cells = s.cells := rfl

theorem addCellReferral_refersTo_apply (s : Sheet) (src tgt b : CellID) :
    (addCellReferral s src tgt).refersTo b
      = if b = src then insertIfAbsent (s.refersTo src) tgt else s.refersTo b :=
  Function.update_apply ..

theorem addCellReferral_referredFrom_apply (s : Sheet) (src tgt a : CellID) :
    (addCellReferral s src tgt).referredFrom a
      = if a = tgt then insertIfAbsent (s.referredFrom tgt) src else s.referredFrom a :=
  Function.update_apply ..

/-! ## Lemmas: preservation of the mutual-inverse invariant (claim C4) -/

theorem invGraph_clearOldEdges {s : Sheet} {cid : CellID} (h : InvGraph s) :
    InvGraph (clearOldEdges s cid) := by
  intro a b
  rw [clearOldEdges_referredFrom, clearOldEdges_refersTo, Function.update_apply]
  by_cases hb : b = cid
  · subst hb
    by_cases ha : a ∈ s.refersTo b <;>
      simp [ha, List.mem_filter, h a b]
  · by_cases ha : a ∈ s.refersTo cid <;>
      simp [ha, hb, List.mem_filter, h a b]

theorem invGraph_addCellReferral {s : Sheet} {src tgt : CellID} (h : InvGraph s) :
    InvGraph (addCellReferral s src tgt) := by
  intro a b
  rw [addCellReferral_referredFrom_apply, addCellReferral_refersTo_apply]
  by_cases hat : a = tgt <;> by_cases hbs : b = src
  · simp [hat, hbs, mem_insertIfAbsent]
  · simpa [hat, hbs, mem_insertIfAbsent] using h tgt b
  · simpa [hat, hbs, mem_insertIfAbsent] using h a src
  · simpa [hat, hbs] using h a b

theorem invGraph_foldAdd (cid : CellID) (R : List CellID) (s : Sheet) (h : InvGraph s) :
    InvGraph (R.foldl (fun s ref => addCellReferral s cid ref) s) := by
  induction R generalizing s with
  | nil => exact h
  | cons r R ih => exact ih _ (invGraph_addCellReferral h)

theorem invGraph_updateEdges {s : Sheet} {cid : CellID} {e : Expr} (h : InvGraph s) :
    InvGraph (updateEdges s cid e) :=
  invGraph_foldAdd cid (CellRefs e) _ (invGraph_clearOldEdges h)

theorem reevalCell_refersTo (s : Sheet) (c : CellID) :
    (reevalCell s c).refersTo = s.refersTo := by
  unfold reevalCell
  cases s.cells c <;> rfl

theorem reevalCell_referredFrom (s : Sheet) (c : CellID) :
    (reevalCell s c).referredFrom = s.referredFrom := by
  unfold reevalCell
  cases s.cells c <;> rfl

theorem reevalAll_refersTo (order : List CellID) (s : Sheet) :
    (reevalAll s order).refersTo = s.refersTo := by
  induction order generalizing s with
  | nil => rfl
  | cons c order ih => rw [reevalAll, List.foldl_cons, ← reevalAll, ih, reevalCell_refersTo]

theorem reevalAll_referredFrom (order : List CellID) (s : Sheet) :
    (reevalAll s order).referredFrom = s.referredFrom := by
  induction order generalizing s with
  | nil => rfl
  | cons c order ih => rw [reevalAll, List.foldl_cons, ← reevalAll, ih, reevalCell_referredFrom]

theorem invGraph_reevalAll {s : Sheet} {order : List CellID} (h : InvGraph s) :
    InvGraph (reevalAll s order) := by
  intro a b
  rw [reevalAll_refersTo, reevalAll_referredFrom]
  exact h a b

theorem invGraph_refreshGraph {s : Sheet} {cid : CellID} {cell : Cell} (h : InvGraph s) :
    InvGraph (refreshGraph s cid cell) := by
  unfold refreshGraph
  cases cell.expr with
  | none => exact h
  | some e => exact invGraph_updateEdges h

theorem invGraph_refresh {s : Sheet} {cid : CellID} (h : InvGraph s) :
    InvGraph (refresh s cid).state := by
  unfold refresh
  cases hcell : s.cells cid with
  | none => exact h
  | some cell =>
    dsimp only
    have h1 : InvGraph (refreshGraph s cid cell) := invGraph_refreshGraph h
    cases hroots : rootReferrers (refreshGraph s cid cell) cid with
    | none => exact h1
    | some roots =>
      dsimp only
      cases hts : topSort (refreshGraph s cid cell) roots with
      | fuelOut => exact h1
      | cycle => exact h1
      | ok order => exact invGraph_reevalAll h1

theorem finishRefresh_state (s : Sheet) (cid : CellID) :
    (finishRefresh s cid).state = (refresh s cid).state := by
  unfold finishRefresh
  cases refresh s cid <;> rfl

theorem invGraph_SetCellValue {s : Sheet} (a : String) (v : Val) (h : InvGraph s) :
    InvGraph (SetCellValue s a v).state := by
  unfold SetCellValue
  cases hp : ParseCellID a with
  | error e => exact h
  | ok cid =>
    dsimp only
    cases v with
    | int n =>
      dsimp only
      rw [finishRefresh_state]
      exact invGraph_refresh fun a b => h a b
    | str fstr =>
      dsimp only
      cases hpe : ParseExpr fstr with
      | panic => exact fun a b => h a b
      | fuelOut => exact fun a b => h a b
      | err e => exact fun a b => h a b
      | ok e =>
        dsimp only
        rw [finishRefresh_state]
        exact invGraph_refresh fun a b => h a b
    | other => exact fun a b => h a b

theorem invGraph_runOpsFrom (ops : List (String × Val)) (s : Sheet) (h : InvGraph s) :
    InvGraph (ops.foldl applyOp s) := by
  induction ops generalizing s with
  | nil => exact h
  | cons op ops ih =>
    exact ih _ (invGraph_SetCellValue op.1 op.2 h)

theorem invGraph_NewSpreadsheet : InvGraph NewSpreadsheet := by
  intro a b
  simp [NewSpreadsheet]

/-! ## Lemmas: preservation of the forward-edge invariant (claim C3) -/

theorem foldAdd_cells (cid : CellID) (R : List CellID) (s : Sheet) :
    (R.foldl (fun s ref => addCellReferral s cid ref) s).cells = s.cells := by
  induction R generalizing s with
  | nil => rfl
  | cons r R ih => rw [List.foldl_cons, ih, addCellReferral_cells]

theorem foldAdd_refersTo_other (cid d : CellID) (hd : d ≠ cid) (R : List CellID) (s : Sheet) :
    (R.foldl (fun s ref => addCellReferral s cid ref) s).refersTo d = s.refersTo d := by
  induction R generalizing s with
  | nil => rfl
  | cons r R ih =>
    rw [List.foldl_cons, ih, addCellReferral_refersTo_apply, if_neg hd]

theorem foldAdd_refersTo_self (cid : CellID) (R : List CellID) (s : Sheet) (x : CellID) :
    x ∈ (R.foldl (fun s ref => addCellReferral s cid ref) s).refersTo cid
      ↔ x ∈ s.refersTo cid ∨ x ∈ R := by
  induction R generalizing s with
  | nil => simp
  | cons r R ih =>
    rw [List.foldl_cons, ih, addCellReferral_refersTo_apply, if_pos rfl, mem_insertIfAbsent]
    simp [List.mem_cons]
    tauto

theorem updateEdges_cells (s : Sheet) (cid : CellID) (e : Expr) :
    (updateEdges s cid e).cells = s.cells := by
  rw [updateEdges, foldAdd_cells, clearOldEdges_cells]

theorem updateEdges_refersTo_self (s : Sheet) (cid : CellID) (e : Expr) (x : CellID) :
    x ∈ (updateEdges s cid e).refersTo cid ↔ x ∈ CellRefs e := by
  rw [updateEdges, foldAdd_refersTo_self, clearOldEdges_refersTo, Function.update_same]
  simp

theorem updateEdges_refersTo_other (s : Sheet) (cid d : CellID) (e : Expr) (hd : d ≠ cid) :
    (updateEdges s cid e).refersTo d = s.refersTo d := by
  rw [updateEdges, foldAdd_refersTo_other cid d hd, clearOldEdges_refersTo,
    Function.update_noteq hd]

theorem exprOf_reevalCell (s : Sheet) (c0 c : CellID) :
    exprOf (reevalCell s c0) c = exprOf s c := by
  unfold reevalCell
  cases h0 : s.cells c0 with
  | none => rfl
  | some cell =>
    unfold exprOf
    by_cases hc : c = c0
    · subst hc
      simp [Function.update_same, h0]
    · simp [Function.update_noteq hc]

theorem exprOf_reevalAll (order : List CellID) (s : Sheet) (c : CellID) :
    exprOf (reevalAll s order) c = exprOf s c := by
  induction order generalizing s with
  | nil => rfl
  | cons c0 order ih =>
    rw [reevalAll, List.foldl_cons, ← reevalAll, ih, exprOf_reevalCell]

theorem invRefs_reevalAll {s : Sheet} {order : List CellID} (h : InvRefs s) :
    InvRefs (reevalAll s order) := by
  intro c e hce x
  rw [exprOf_reevalAll] at hce
  rw [reevalAll_refersTo]
  exact h c e hce x

/-- The key step for claim C3: `refresh` restores the forward-edge
invariant at the refreshed cell provided it holds everywhere else. (Just
before `refresh`, `SetCellValue` has stored a new expression whose edges
are not yet in the graph.) -/
theorem invRefs_refresh_except {s : Sheet} {cid : CellID}
    (h : ∀ c e, c ≠ cid → exprOf s c = some e → ∀ x, x ∈ s.refersTo c ↔ x ∈ CellRefs e) :
    InvRefs (refresh s cid).state := by
  unfold refresh
  cases hcell : s.cells cid with
  | none =>
    dsimp only [RefRes.state]
    intro c e hce x
    by_cases hc : c = cid
    · subst hc
      simp [exprOf, hcell] at hce
    · exact h c e hc hce x
  | some cell =>
    dsimp only
    have h1 : InvRefs (refreshGraph s cid cell) := by
      unfold refreshGraph
      cases he : cell.expr with
      | none =>
        dsimp only
        intro c e hce x
        by_cases hc : c = cid
        · subst hc
          simp [exprOf, hcell, he] at hce
        · exact h c e hc hce x
      | some e =>
        dsimp only
        intro c e2 hce x
        have hce1 : exprOf s c = some e2 := by
          unfold exprOf at hce ⊢
          rw [updateEdges_cells] at hce
          exact hce
        by_cases hc : c = cid
        · subst hc
          have he2 : e2 = e := by
            simp [exprOf, hcell, he] at hce1
            exact hce1.symm
          subst he2
          exact updateEdges_refersTo_self s c e2 x
        · rw [updateEdges_refersTo_other s cid c e hc]
          exact h c e2 hc hce1 x
    cases hroots : rootReferrers (refreshGraph s cid cell) cid with
    | none => exact h1
    | some roots =>
      dsimp only
      cases hts : topSort (refreshGraph s cid cell) roots with
      | fuelOut => exact h1
      | cycle => exact h1
      | ok order => exact invRefs_reevalAll h1

theorem invRefs_setCellNoExpr {s : Sheet} (cid : CellID) (n : Int) (h : InvRefs s) :
    InvRefs { s with cells := Function.update s.cells cid (some ⟨n, none⟩) } := by
  intro c e hce x
  by_cases hc : c = cid
  · subst hc
    simp [exprOf, Function.update_same] at hce
  · simp only [exprOf, Function.update_noteq hc] at hce
    exact h c e hce x

theorem invRefs_SetCellValue {s : Sheet} (a : String) (v : Val) (h : InvRefs s) :
    InvRefs (SetCellValue s a v).state := by
  unfold SetCellValue
  cases hp : ParseCellID a with
  | error e => exact h
  | ok cid =>
    dsimp only
    have h0 : InvRefs
        { s with
          cells :=
            match s.cells cid with
            | none => Function.update s.cells cid (some ⟨0, none⟩)
            | some _ => s.cells
          dom := insertIfAbsent s.dom cid } := by
      cases hcell : s.cells cid with
      | none =>
        exact fun c e hce x => invRefs_setCellNoExpr cid 0 h c e hce x
      | some cell =>
        exact fun c e hce x => h c e hce x
    cases v with
    | int n =>
      dsimp only
      rw [finishRefresh_state]
      exact invRefs_refresh_except fun c e _ hce x =>
        invRefs_setCellNoExpr cid n h0 c e hce x
    | str fstr =>
      dsimp only
      cases hpe : ParseExpr fstr with
      | panic => exact h0
      | fuelOut => exact h0
      | err e => exact h0
      | ok e =>
        dsimp only
        rw [finishRefresh_state]
        refine invRefs_refresh_except ?_
        intro c e2 hc hce x
        simp only [exprOf, Function.update_noteq hc] at hce
        exact h0 c e2 hce x
    | other => exact h0

theorem invRefs_runOpsFrom (ops : List (String × Val)) (s : Sheet) (h : InvRefs s) :
    InvRefs (ops.foldl applyOp s) := by
  induction ops generalizing s with
  | nil => exact h
  | cons op ops ih => exact ih _ (invRefs_SetCellValue op.1 op.2 h)

theorem invRefs_NewSpreadsheet : InvRefs NewSpreadsheet := by
  intro c e hce
  simp [exprOf, NewSpreadsheet] at hce

/-! ## Claim theorems: the graph invariants -/

/-- Claim C3 is false as stated: after `SetCellValue("B1","=A1")` followed by
`SetCellValue("B1",5)` (both successful), B1 holds the literal 5 but
`refersTo[B1]` still contains A1 (the int branch of `SetCellValue` never
clears edges, because `refresh` only touches the graph when the cell holds
an expression); and after the successful `SetCellValue("B1","=-A1")`, B1's
expression contains the cell reference A1 but `refersTo[B1]` is empty
(`CellRefs` has no `UnaryExpr` case). -/
theorem claim_C3_counterexample :
    (allOkFrom NewSpreadsheet [("B1", .str "=A1"), ("B1", .int 5)] = true
      ∧ exprOf (runOps [("B1", .str "=A1"), ("B1", .int 5)]) ⟨1, 0⟩ = none
      ∧ (runOps [("B1", .str "=A1"), ("B1", .int 5)]).refersTo ⟨1, 0⟩ = [⟨0, 0⟩])
    ∧ (allOkFrom NewSpreadsheet [("B1", .str "=-A1")] = true
      ∧ exprOf (runOps [("B1", .str "=-A1")]) ⟨1, 0⟩
          = some (.unary (.cellRef ⟨0, 0⟩) TokenSub)
      ∧ (runOps [("B1", .str "=-A1")]).refersTo ⟨1, 0⟩ = []) := by
  decide

/-- Claim C3 (amended): after every `SetCellValue` call (successful or not),
every cell that currently holds an expression has `refersTo` equal to the
set of references collected by `CellRefs` from that expression (`CellRefs`
does not descend into unary-minus operands); a cell currently holding a
literal keeps whatever edges its last stored expression left behind. -/
theorem claim_C3_amended (ops : List (String × Val)) (c : CellID) (cell : Cell) (e : Expr)
    (h1 : (runOps ops).cells c = some cell) (h2 : cell.expr = some e) (x : CellID) :
    x ∈ (runOps ops).refersTo c ↔ x ∈ CellRefs e := by
  have hinv : InvRefs (runOps ops) := invRefs_runOpsFrom ops NewSpreadsheet invRefs_NewSpreadsheet
  exact hinv c e (by simp [exprOf, h1, h2]) x

theorem claim_C3_amended_witness :
    (⟨0, 0⟩ : CellID) ∈ (runOps [("B1", .str "=A1")]).refersTo ⟨1, 0⟩
      ↔ (⟨0, 0⟩ : CellID) ∈ CellRefs (.cellRef ⟨0, 0⟩) :=
  claim_C3_amended [("B1", .str "=A1")] ⟨1, 0⟩ ⟨0, some (.cellRef ⟨0, 0⟩)⟩ (.cellRef ⟨0, 0⟩)
    (by decide) (by decide) ⟨0, 0⟩

/-- Claim C4: after every completed mutation (indeed after every
`SetCellValue` call, successful or not, starting from a fresh spreadsheet),
the two adjacency maps are exact structural inverses:
`b ∈ referredFrom[a]` iff `a ∈ refersTo[b]`. -/
theorem claim_C4_mutual_inverse (ops : List (String × Val)) (a b : CellID) :
    b ∈ (runOps ops).referredFrom a ↔ a ∈ (runOps ops).refersTo b :=
  invGraph_runOpsFrom ops NewSpreadsheet invGraph_NewSpreadsheet a b

/-! ## Claim theorems: cycles, division, precedence, panics -/

/-- Claim C2: storing a formula that closes a reference cycle through the
mutated cell fails with `ErrCircRef`, in each of the three scenarios the
spec lists: the direct self-reference `A1="=A1"`; the two-cell cycle closed
by the second call (`A1="=A2"` then `A2="=A1"`); and the 15-cell ring
closed by its last edge (`A1="=A2"`, …, `A15="=A16"` all succeed, then
`A15="=A1"` fails). -/
theorem claim_C2_cycle_rejection :
    isCircErr (SetCellValue NewSpreadsheet "A1" (.str "=A1")) = true
    ∧ (allOkFrom NewSpreadsheet [("A1", .str "=A2")] = true
      ∧ isCircErr (SetCellValue (runOps [("A1", .str "=A2")]) "A2" (.str "=A1")) = true)
    ∧ (allOkFrom NewSpreadsheet ringOps = true
      ∧ isCircErr (SetCellValue (runOps ringOps) "A15" (.str "=A1")) = true) := by
  set_option maxRecDepth 100000 in decide

/-- Claim C5: evaluating `BinaryOp(divide, x, y)` yields the truncated
integer quotient, and yields 0 whenever the divisor evaluates to 0; the
embedded evaluator is a total function (the division-by-zero guard is
explicit in the source), so no panic is possible. End to end,
`A1="=12/0"` succeeds and `GetCellValue("A1")` returns 0. -/
theorem claim_C5_division_by_zero :
    (∀ (s : Sheet) (x y : Expr),
      evalExpr s (.binary x TokenDiv y)
        = if evalExpr s y = 0 then 0 else Int.tdiv (evalExpr s x) (evalExpr s y))
    ∧ allOkFrom NewSpreadsheet [("A1", .str "=12/0")] = true
    ∧ GetCellValue (runOps [("A1", .str "=12/0")]) "A1" = .ok 0 := by
  refine ⟨fun s x y => ?_, by decide, by decide⟩
  simp [evalExpr, TokenDiv, TokenAdd, TokenMul, TokenSub]

/-- Claim C8: the parser of src/internal/expr.go is left-associative with
`*`/`/` binding tighter than `+`/`-` and unary minus tighter still:
`=A1*B2+C3*D4` parses as `(A1*B2)+(C3*D4)`; `=A1/B2/C3/D4` parses as
`((A1/B2)/C3)/D4`; `=-123*-456` parses as a product of two unary-negated
constants, not a subtraction. -/
theorem claim_C8_precedence_associativity :
    IE.ParseExpr "=A1*B2+C3*D4"
        = .ok (.binary (.binary (.cellRef ⟨0, 0⟩) TokenMul (.cellRef ⟨1, 1⟩)) TokenAdd
            (.binary (.cellRef ⟨2, 2⟩) TokenMul (.cellRef ⟨3, 3⟩)))
    ∧ IE.ParseExpr "=A1/B2/C3/D4"
        = .ok (.binary (.binary (.binary (.cellRef ⟨0, 0⟩) TokenDiv (.cellRef ⟨1, 1⟩))
            TokenDiv (.cellRef ⟨2, 2⟩)) TokenDiv (.cellRef ⟨3, 3⟩))
    ∧ IE.ParseExpr "=-123*-456"
        = .ok (.binary (.unary (.const 123) TokenSub) TokenMul
            (.unary (.const 456) TokenSub)) := by
  decide

/-- Claim C10: the tokenizer reads `runes[0]` unconditionally and its
space-skipping loop advances past the end of the input, so the empty
formula string and a formula string with trailing spaces cause an
out-of-bounds index access (runtime panic) rather than a parse error —
in both cited copies of `tokenize`, and propagating through `ParseExpr`
and `SetCellValue`. -/
theorem claim_C10_tokenizer_out_of_bounds :
    tokenize "" = .panic
    ∧ tokenize "=1 " = .panic
    ∧ ParseExpr "" = .panic
    ∧ ParseExpr "=1 " = .panic
    ∧ isPanicRes (SetCellValue NewSpreadsheet "A1" (.str "")) = true
    ∧ isPanicRes (SetCellValue NewSpreadsheet "A1" (.str "=1 ")) = true
    ∧ IE.tokenize "" = .panic
    ∧ IE.tokenize "=1 " = .panic := by
  decide

/-! ## Lemmas: the parsing budget is generous enough — `fuelOut` is
unreachable, so every formula text yields a parse tree, a parse error, or a
panic, exactly as in the source (C9) -/

theorem drop_cons_of_get? : ∀ (l : List Char) (j : Nat) (c : Char), l.get? j = some c →
    l.drop j = c :: l.drop (j + 1) := by
  intro l
  induction l with
  | nil =>
    intro j c h
    cases j with
    | zero => cases h
    | succ j2 => cases h
  | cons a t ih =>
    intro j c h
    cases j with
    | zero =>
      injection h with h1
      subst h1
      rfl
    | succ j2 =>
      exact ih j2 c h

theorem skipWsGo_some_bounds : ∀ (l : List Char) (i j : Nat), skipWsGo l i = some j →
    i ≤ j ∧ j < i + l.length := by
  intro l
  induction l with
  | nil => intro i j h; cases h
  | cons c rest ih =>
    intro i j h
    simp only [skipWsGo] at h
    by_cases hc : c = ' '
    · rw [if_pos hc] at h
      have := ih (i + 1) j h
      simp only [List.length_cons]
      omega
    · rw [if_neg hc] at h
      injection h with h1
      subst h1
      simp only [List.length_cons]
      omega

theorem skipWs_some_bounds (runes : List Char) (i j : Nat) (hi : i ≤ runes.length)
    (h : skipWs runes i = some j) : i ≤ j ∧ j < runes.length := by
  unfold skipWs at h
  have hb := skipWsGo_some_bounds (runes.drop i) i j h
  rw [List.length_drop] at hb
  omega

theorem runEndGo_ge (p : Char → Bool) : ∀ (l : List Char) (i : Nat), i ≤ runEndGo p l i := by
  intro l
  induction l with
  | nil => intro i; exact le_refl i
  | cons c rest ih =>
    intro i
    simp only [runEndGo]
    by_cases hc : p c = true
    · rw [if_pos hc]
      exact le_trans (by omega) (ih (i + 1))
    · rw [if_neg hc]

theorem runEndGo_le (p : Char → Bool) : ∀ (l : List Char) (i : Nat),
    runEndGo p l i ≤ i + l.length := by
  intro l
  induction l with
  | nil => intro i; simp [runEndGo]
  | cons c rest ih =>
    intro i
    simp only [runEndGo, List.length_cons]
    by_cases hc : p c = true
    · rw [if_pos hc]
      have := ih (i + 1)
      omega
    · rw [if_neg hc]
      omega

theorem runEnd_le_length (runes : List Char) (p : Char → Bool) (i : Nat)
    (hi : i ≤ runes.length) : runEnd runes p i ≤ runes.length := by
  unfold runEnd
  have := runEndGo_le p (runes.drop i) i
  rw [List.length_drop] at this
  omega

/-- The scanned run is nonempty when the character under the cursor
satisfies the predicate: the loop advances. -/
theorem runEnd_gt (runes : List Char) (p : Char → Bool) (j : Nat) (c : Char)
    (hg : runes.get? j = some c) (hp : p c = true) : j + 1 ≤ runEnd runes p j := by
  have hdrop : runes.drop j = c :: runes.drop (j + 1) := drop_cons_of_get? runes j c hg
  unfold runEnd
  rw [hdrop]
  simp only [runEndGo]
  rw [if_pos hp]
  exact runEndGo_ge p _ _

/-- The tokenizer loop's budget of one unit per remaining index never runs
out: each iteration either stops, errors, panics, or advances the cursor. -/
theorem tokenizeLoop_ne_fuelOut (opChars runes : List Char) :
    ∀ (fuel i : Nat) (acc : List String), i ≤ runes.length + 1 →
    runes.length + 2 ≤ fuel + i →
    tokenizeLoop opChars runes fuel i acc ≠ .fuelOut := by
  intro fuel
  induction fuel with
  | zero =>
    intro i acc h1 h2
    exact absurd h2 (by omega)
  | succ f ih =>
    intro i acc h1 h2
    simp only [tokenizeLoop]
    by_cases hi : i < runes.length
    · rw [if_pos hi]
      cases hs : skipWs runes i with
      | none => exact fun h => nomatch h
      | some j =>
        have hj := skipWs_some_bounds runes i j (by omega) hs
        dsimp only
        cases hg : runes.get? j with
        | none => exact fun h => nomatch h
        | some c =>
          dsimp only
          by_cases hd : isDigitC c = true
          · rw [if_pos hd]
            have he1 : j + 1 ≤ runEnd runes isDigitC j := runEnd_gt runes isDigitC j c hg hd
            have he2 : runEnd runes isDigitC j ≤ runes.length :=
              runEnd_le_length runes isDigitC j (by omega)
            exact ih _ _ (by omega) (by omega)
          · rw [if_neg hd]
            by_cases hu : isUpperC c = true
            · rw [if_pos hu]
              have he1 : j + 1 ≤ runEnd runes (fun ch => isDigitC ch || isUpperC ch) j :=
                runEnd_gt runes _ j c hg (by simp [hu])
              have he2 : runEnd runes (fun ch => isDigitC ch || isUpperC ch) j
                  ≤ runes.length :=
                runEnd_le_length runes _ j (by omega)
              exact ih _ _ (by omega) (by omega)
            · rw [if_neg hu]
              by_cases ho : c ∈ opChars
              · rw [if_pos ho]
                exact ih _ _ (by omega) (by omega)
              · rw [if_neg ho]
                exact fun h => nomatch h
    · rw [if_neg hi]
      exact fun h => nomatch h

theorem tokenize_ne_fuelOut (str : String) : tokenize str ≠ .fuelOut := by
  simp only [tokenize]
  cases hg : str.toList.get? 0 with
  | none => exact fun h => nomatch h
  | some c =>
    dsimp only
    by_cases hc : c ≠ '='
    · rw [if_pos hc]
      exact fun h => nomatch h
    · rw [if_neg hc]
      exact tokenizeLoop_ne_fuelOut opChars1 str.toList (str.toList.length + 1) 1 []
        (by omega) (by omega)

/-- A successful parse step never lengthens the remaining token list. -/
theorem ok_len_le {X e : Expr} {l r : List String} {n : Nat}
    (h : (PRes.ok (X, l) : PRes (Expr × List String)) = .ok (e, r)) (hl : l.length ≤ n) :
    r.length ≤ n := by
  injection h with h1
  injection h1 with h2 h3
  rw [← h3]
  exact hl

/-- Fuel adequacy of the recursive descent parser, all six functions at
once by induction on the budget: with the stated affine budgets (five units
per token plus a per-function constant) no function can return `fuelOut`,
and a successful call leaves at most as many tokens as it was given. -/
theorem parser_fuel_adequate : ∀ F : Nat,
    (∀ tokens : List String, 5 * tokens.length + 5 ≤ F →
      parseExprP F tokens ≠ .fuelOut
      ∧ ∀ e rest, parseExprP F tokens = .ok (e, rest) → rest.length ≤ tokens.length)
    ∧ (∀ tokens : List String, 5 * tokens.length + 4 ≤ F →
      parseTermP F tokens ≠ .fuelOut
      ∧ ∀ e rest, parseTermP F tokens = .ok (e, rest) → rest.length ≤ tokens.length)
    ∧ (∀ (X : Expr) (rest : List String), 5 * rest.length + 1 ≤ F →
      parseTermLoop F X rest ≠ .fuelOut
      ∧ ∀ e r, parseTermLoop F X rest = .ok (e, r) → r.length ≤ rest.length)
    ∧ (∀ tokens : List String, 5 * tokens.length + 3 ≤ F →
      parseFactorP F tokens ≠ .fuelOut
      ∧ ∀ e rest, parseFactorP F tokens = .ok (e, rest) → rest.length ≤ tokens.length)
    ∧ (∀ (X : Expr) (rest : List String), 5 * rest.length + 1 ≤ F →
      parseFactorLoop F X rest ≠ .fuelOut
      ∧ ∀ e r, parseFactorLoop F X rest = .ok (e, r) → r.length ≤ rest.length)
    ∧ (∀ tokens : List String, 5 * tokens.length + 2 ≤ F →
      parseUnaryP F tokens ≠ .fuelOut
      ∧ ∀ e rest, parseUnaryP F tokens = .ok (e, rest) → rest.length ≤ tokens.length)
    ∧ (∀ tokens : List String, 5 * tokens.length + 1 ≤ F →
      parsePrimaryP F tokens ≠ .fuelOut
      ∧ ∀ e rest, parsePrimaryP F tokens = .ok (e, rest) → rest.length ≤ tokens.length) := by
  intro F
  induction F with
  | zero =>
    exact ⟨fun t h => absurd h (by omega), fun t h => absurd h (by omega),
      fun X r h => absurd h (by omega), fun t h => absurd h (by omega),
      fun X r h => absurd h (by omega), fun t h => absurd h (by omega),
      fun t h => absurd h (by omega)⟩
  | succ f ih =>
    obtain ⟨ihE, ihT, ihTL, ihFa, ihFL, ihU, ihP⟩ := ih
    refine ⟨?_, ?_, ?_, ?_, ?_, ?_, ?_⟩
    · intro tokens hF
      simp only [parseExprP]
      exact ihT tokens (by omega)
    · intro tokens hF
      simp only [parseTermP]
      cases hx : parseFactorP f tokens with
      | fuelOut => exact absurd hx (ihFa tokens (by omega)).1
      | panic => exact ⟨(fun h => nomatch h), fun e r h => nomatch h⟩
      | err e0 => exact ⟨(fun h => nomatch h), fun e r h => nomatch h⟩
      | ok p =>
        obtain ⟨X, rest⟩ := p
        dsimp only
        have hrest : rest.length ≤ tokens.length := (ihFa tokens (by omega)).2 X rest hx
        have hloop := ihTL X rest (by omega)
        exact ⟨hloop.1, fun e r h => le_trans (hloop.2 e r h) hrest⟩
    · intro X rest hF
      simp only [parseTermLoop]
      cases rest with
      | nil =>
        exact ⟨(fun h => nomatch h), fun e r h => ok_len_le h (le_refl _)⟩
      | cons token rest1 =>
        simp only [List.length_cons] at hF
        dsimp only
        by_cases ht : token ∈ termOps
        · rw [if_pos ht]
          cases hx : parseFactorP f rest1 with
          | fuelOut => exact absurd hx (ihFa rest1 (by omega)).1
          | panic => exact ⟨(fun h => nomatch h), fun e r h => nomatch h⟩
          | err e0 => exact ⟨(fun h => nomatch h), fun e r h => nomatch h⟩
          | ok p =>
            obtain ⟨Y, rest2⟩ := p
            dsimp only
            have hr2 : rest2.length ≤ rest1.length := (ihFa rest1 (by omega)).2 Y rest2 hx
            have hloop := ihTL (.binary X token Y) rest2 (by omega)
            refine ⟨hloop.1, fun e r h => ?_⟩
            have := hloop.2 e r h
            simp only [List.length_cons]
            omega
        · rw [if_neg ht]
          exact ⟨(fun h => nomatch h), fun e r h => ok_len_le h (le_refl _)⟩
    · intro tokens hF
      simp only [parseFactorP]
      cases hx : parseUnaryP f tokens with
      | fuelOut => exact absurd hx (ihU tokens (by omega)).1
      | panic => exact ⟨(fun h => nomatch h), fun e r h => nomatch h⟩
      | err e0 => exact ⟨(fun h => nomatch h), fun e r h => nomatch h⟩
      | ok p =>
        obtain ⟨X, rest⟩ := p
        dsimp only
        have hrest : rest.length ≤ tokens.length := (ihU tokens (by omega)).2 X rest hx
        have hloop := ihFL X rest (by omega)
        exact ⟨hloop.1, fun e r h => le_trans (hloop.2 e r h) hrest⟩
    · intro X rest hF
      simp only [parseFactorLoop]
      cases rest with
      | nil =>
        exact ⟨(fun h => nomatch h), fun e r h => ok_len_le h (le_refl _)⟩
      | cons token rest1 =>
        simp only [List.length_cons] at hF
        dsimp only
        by_cases ht : token ∈ factorOps
        · rw [if_pos ht]
          cases hx : parseUnaryP f rest1 with
          | fuelOut => exact absurd hx (ihU rest1 (by omega)).1
          | panic => exact ⟨(fun h => nomatch h), fun e r h => nomatch h⟩
          | err e0 => exact ⟨(fun h => nomatch h), fun e r h => nomatch h⟩
          | ok p =>
            obtain ⟨Y, rest2⟩ := p
            dsimp only
            have hr2 : rest2.length ≤ rest1.length := (ihU rest1 (by omega)).2 Y rest2 hx
            have hloop := ihFL (.binary X token Y) rest2 (by omega)
            refine ⟨hloop.1, fun e r h => ?_⟩
            have := hloop.2 e r h
            simp only [List.length_cons]
            omega
        · rw [if_neg ht]
          exact ⟨(fun h => nomatch h), fun e r h => ok_len_le h (le_refl _)⟩
    · intro tokens hF
      simp only [parseUnaryP]
      cases tokens with
      | nil => exact ⟨(fun h => nomatch h), fun e r h => nomatch h⟩
      | cons t rest =>
        simp only [List.length_cons] at hF
        dsimp only
        by_cases ht : t = TokenSub
        · rw [if_pos ht]
          cases hx : parseUnaryP f rest with
          | fuelOut => exact absurd hx (ihU rest (by omega)).1
          | panic => exact ⟨(fun h => nomatch h), fun e r h => nomatch h⟩
          | err e0 => exact ⟨(fun h => nomatch h), fun e r h => nomatch h⟩
          | ok p =>
            obtain ⟨X, rest1⟩ := p
            dsimp only
            have hr1 : rest1.length ≤ rest.length := (ihU rest (by omega)).2 X rest1 hx
            cases X <;> dsimp only <;>
              exact ⟨(fun h => nomatch h),
                fun e r h => ok_len_le h (by simp only [List.length_cons]; omega)⟩
        · rw [if_neg ht]
          exact ihP (t :: rest) (by simp only [List.length_cons]; omega)
    · intro tokens hF
      simp only [parsePrimaryP]
      cases tokens with
      | nil => exact ⟨(fun h => nomatch h), fun e r h => nomatch h⟩
      | cons t rest =>
        simp only [List.length_cons] at hF
        dsimp only
        cases hcid : ParseCellID t with
        | ok cellID =>
          exact ⟨(fun h => nomatch h),
            fun e r h => ok_len_le h (by simp only [List.length_cons]; omega)⟩
        | error e0 =>
          dsimp only
          cases hat : atoi t.toList with
          | some v =>
            exact ⟨(fun h => nomatch h),
              fun e r h => ok_len_le h (by simp only [List.length_cons]; omega)⟩
          | none =>
            dsimp only
            by_cases ht : t = TokenLPar
            · rw [if_pos ht]
              cases hx : parseExprP f rest with
              | fuelOut => exact absurd hx (ihE rest (by omega)).1
              | panic => exact ⟨(fun h => nomatch h), fun e r h => nomatch h⟩
              | err e1 => exact ⟨(fun h => nomatch h), fun e r h => nomatch h⟩
              | ok p =>
                obtain ⟨expr, rest1⟩ := p
                dsimp only
                have hr1 : rest1.length ≤ rest.length := (ihE rest (by omega)).2 expr rest1 hx
                cases rest1 with
                | nil => exact ⟨(fun h => nomatch h), fun e r h => nomatch h⟩
                | cons r0 rest2 =>
                  simp only [List.length_cons] at hr1
                  dsimp only
                  by_cases hr0 : r0 = TokenRPar
                  · rw [if_pos hr0]
                    exact ⟨(fun h => nomatch h),
                      fun e r h => ok_len_le h (by simp only [List.length_cons]; omega)⟩
                  · rw [if_neg hr0]
                    exact ⟨(fun h => nomatch h), fun e r h => nomatch h⟩
            · rw [if_neg ht]
              exact ⟨(fun h => nomatch h), fun e r h => nomatch h⟩

/-- The top-level budget `5 · tokens + 5` is generous enough: `ParseExpr`
never reports `fuelOut`, so on every formula text the model, like the
source, returns a parse tree, a parse error, or a panic. -/
theorem ParseExpr_ne_fuelOut (str : String) : ParseExpr str ≠ .fuelOut := by
  unfold ParseExpr
  cases ht : tokenize str with
  | fuelOut => exact absurd ht (tokenize_ne_fuelOut str)
  | panic => exact fun h => nomatch h
  | err e => exact fun h => nomatch h
  | ok tokens =>
    dsimp only
    have hp := (parser_fuel_adequate (5 * tokens.length + 5)).1 tokens (by omega)
    cases hx : parseExprP (5 * tokens.length + 5) tokens with
    | fuelOut => exact absurd hx hp.1
    | panic => exact fun h => nomatch h
    | err e => exact fun h => nomatch h
    | ok p =>
      obtain ⟨expr, rest⟩ := p
      dsimp only
      by_cases hr : rest = []
      · rw [if_pos hr]
        exact fun h => nomatch h
      · rw [if_neg hr]
        exact fun h => nomatch h

/-! ## Claim theorem: parse failure leaves the cell untouched (C9) -/

/-- Claim C9: the model's parse outcomes are total — `ParseExpr` never
exhausts its budget, so every formula text either parses, errors, or
panics as in the source — and if the formula text fails to parse,
`SetCellValue` returns that error, and every cell's stored expression,
cached value, and graph edges are exactly as before the call. -/
theorem claim_C9_parse_error_aborts :
    (∀ fstr : String, ParseExpr fstr ≠ .fuelOut)
    ∧ ∀ (s : Sheet) (a fstr : String) (cid : CellID) (e : Err),
      ParseCellID a = .ok cid → ParseExpr fstr = .err e →
      ∃ s1, SetCellValue s a (.str fstr) = .err e s1
        ∧ (∀ c, exprOf s1 c = exprOf s c)
        ∧ (∀ c, valueOf s1 c = valueOf s c)
        ∧ s1.refersTo = s.refersTo
        ∧ s1.referredFrom = s.referredFrom := by
  constructor
  · exact ParseExpr_ne_fuelOut
  · intro s a fstr cid e hp hpe
    unfold SetCellValue
    rw [hp]
    dsimp only
    rw [hpe]
    refine ⟨_, rfl, fun c => ?_, fun c => ?_, rfl, rfl⟩
    · cases hcell : s.cells cid with
      | some cell => simp [exprOf, hcell]
      | none =>
        by_cases hc : c = cid
        · subst hc
          simp [exprOf, hcell, Function.update_same]
        · simp [exprOf, hcell, Function.update_noteq hc]
    · cases hcell : s.cells cid with
      | some cell => simp [valueOf, hcell]
      | none =>
        by_cases hc : c = cid
        · subst hc
          simp [valueOf, hcell, Function.update_same]
        · simp [valueOf, hcell, Function.update_noteq hc]

theorem claim_C9_parse_error_aborts_witness :
    ParseExpr "=(((((" ≠ .fuelOut
    ∧ ∃ s1, SetCellValue NewSpreadsheet "A1" (.str "=)") = .err .exprParse s1
      ∧ (∀ c, exprOf s1 c = exprOf NewSpreadsheet c)
      ∧ (∀ c, valueOf s1 c = valueOf NewSpreadsheet c)
      ∧ s1.refersTo = NewSpreadsheet.refersTo
      ∧ s1.referredFrom = NewSpreadsheet.referredFrom :=
  ⟨claim_C9_parse_error_aborts.1 "=(((((",
    claim_C9_parse_error_aborts.2 NewSpreadsheet "A1" "=)" ⟨0, 0⟩ .exprParse
      (by decide) (by decide)⟩

/-! ## Lemmas: the DFS topological sort orders dependencies first (claim C1) -/

/-- Master invariant of the DFS: a successful run restores the temp marks,
only appends to the result, permanently marks every cell of its worklist,
keeps `perm` and `result` in sync, and keeps the result a topological
order (each entry's references occur earlier). -/
theorem visitMany_ok_invariant (rt : CellID → List CellID) :
    ∀ (fuel : Nat) (l : List CellID) (st st' : TState),
      visitMany rt fuel l st = .ok st' →
      (∀ c, c ∈ st.perm ↔ c ∈ st.result) →
      OrderedFor rt st.result →
      st'.temp = st.temp
      ∧ (∃ t, st'.result = st.result ++ t)
      ∧ (∀ c ∈ l, c ∈ st'.perm)
      ∧ (∀ c, c ∈ st'.perm ↔ c ∈ st'.result)
      ∧ OrderedFor rt st'.result := by
  intro fuel
  induction fuel with
  | zero =>
    intro l st st' heq hinv hord
    cases l with
    | nil =>
      simp only [visitMany] at heq
      injection heq with h
      subst h
      exact ⟨rfl, ⟨[], by simp⟩, by simp, hinv, hord⟩
    | cons c cs =>
      simp only [visitMany] at heq
      cases heq
  | succ fuel ih =>
    intro l st st' heq hinv hord
    cases l with
    | nil =>
      simp only [visitMany] at heq
      injection heq with h
      subst h
      exact ⟨rfl, ⟨[], by simp⟩, by simp, hinv, hord⟩
    | cons curr rest =>
      simp only [visitMany] at heq
      by_cases hperm : curr ∈ st.perm
      · rw [if_pos hperm] at heq
        obtain ⟨ht, ⟨t, hres⟩, hmem, hinv1, hord1⟩ := ih rest st st' heq hinv hord
        refine ⟨ht, ⟨t, hres⟩, ?_, hinv1, hord1⟩
        intro c hc
        rcases List.mem_cons.mp hc with rfl | hc
        · have h1 : c ∈ st.result := (hinv c).mp hperm
          have h2 : c ∈ st'.result := by
            rw [hres]
            exact List.mem_append_left _ h1
          exact (hinv1 c).mpr h2
        · exact hmem c hc
      · rw [if_neg hperm] at heq
        by_cases htemp : curr ∈ st.temp
        · rw [if_pos htemp] at heq
          cases heq
        · rw [if_neg htemp] at heq
          cases hin : visitMany rt fuel (rt curr) { st with temp := curr :: st.temp } with
          | fuelOut => rw [hin] at heq; cases heq
          | cycle => rw [hin] at heq; cases heq
          | ok st2 =>
            rw [hin] at heq
            dsimp only at heq
            obtain ⟨ht2, ⟨t2, hres2⟩, hmem2, hinv2, hord2⟩ :=
              ih (rt curr) { st with temp := curr :: st.temp } st2 hin hinv hord
            have hinv3 : ∀ c,
                c ∈ (⟨curr :: st2.perm, st2.temp.erase curr, st2.result ++ [curr]⟩ : TState).perm
                ↔ c ∈ (⟨curr :: st2.perm, st2.temp.erase curr,
                    st2.result ++ [curr]⟩ : TState).result := by
              intro c
              show c ∈ curr :: st2.perm ↔ c ∈ st2.result ++ [curr]
              rw [List.mem_cons, List.mem_append, List.mem_singleton, hinv2 c]
              tauto
            have hord3 : OrderedFor rt
                (⟨curr :: st2.perm, st2.temp.erase curr,
                  st2.result ++ [curr]⟩ : TState).result := by
              intro i c hget d hd
              show d ∈ (st2.result ++ [curr]).take i
              have hget' : (st2.result ++ [curr]).get? i = some c := hget
              have hilen : i < st2.result.length + 1 := by
                by_contra hge
                push_neg at hge
                rw [List.get?_eq_none.mpr (by simpa using hge)] at hget'
                cases hget'
              rcases Nat.lt_or_ge i st2.result.length with hlt | hge
              · rw [List.get?_append hlt] at hget'
                have hmemtake := hord2 i c hget' d hd
                rw [List.take_append_of_le_length (Nat.le_of_lt hlt)]
                exact hmemtake
              · have hieq : i = st2.result.length := Nat.le_antisymm (Nat.lt_succ_iff.mp hilen) hge
                subst hieq
                rw [List.get?_concat_length] at hget'
                injection hget' with hc
                subst hc
                rw [List.take_append_of_le_length (Nat.le_refl _), List.take_length]
                exact (hinv2 d).mp (hmem2 d hd)
            obtain ⟨ht3, ⟨t3, hres3⟩, hmem3, hinv4, hord4⟩ :=
              ih rest ⟨curr :: st2.perm, st2.temp.erase curr, st2.result ++ [curr]⟩ st'
                heq hinv3 hord3
            refine ⟨?_, ⟨t2 ++ [curr] ++ t3, ?_⟩, ?_, hinv4, hord4⟩
            · rw [ht3]
              show st2.temp.erase curr = st.temp
              rw [ht2]
              exact List.erase_cons_head curr st.temp
            · rw [hres3]
              show st2.result ++ [curr] ++ t3 = st.result ++ (t2 ++ [curr] ++ t3)
              rw [hres2]
              simp [List.append_assoc]
            · intro c hc
              rcases List.mem_cons.mp hc with rfl | hc
              · have h1 : c ∈ st2.result ++ [c] :=
                  List.mem_append_right _ (List.mem_singleton.mpr rfl)
                have h2 : c ∈ st'.result := by
                  rw [hres3]
                  exact List.mem_append_left _ h1
                exact (hinv4 c).mpr h2
              · exact hmem3 c hc

/-- A successful `topSort` output is a topological order for the sheet's
forward edges. -/
theorem topSort_ok_ordered {s : Sheet} {roots order : List CellID}
    (h : topSort s roots = .ok order) : OrderedFor s.refersTo order := by
  unfold topSort at h
  cases hv : visitMany s.refersTo ((s.dom.length + 2) * (s.dom.length + 2)) roots ⟨[], [], []⟩ with
  | ok st =>
    rw [hv] at h
    injection h with h
    subst h
    have hres := visitMany_ok_invariant s.refersTo _ roots ⟨[], [], []⟩ st hv
      (by intro c; show c ∈ ([] : List CellID) ↔ c ∈ ([] : List CellID); rfl)
      (by
        intro i c hget d hd
        have : (([] : List CellID)).get? i = some c := hget
        simp at this)
    exact hres.2.2.2.2
  | cycle => rw [hv] at h; cases h
  | fuelOut => rw [hv] at h; cases h

/-! ## Claim theorem: chain propagation and ordered recomputation (C1) -/

/-- Claim C1: the reference chain `A1="=A2"`, …, `A6="=A7"`, `A7=12` is
fully successful and `GetCellValue("A1")` then returns 12; and in general
the topological order a successful `refresh` walks (the output of
`topSort`) lists every stored cell's dependencies strictly before the cell
itself, so each recomputation only reads already-refreshed values. -/
theorem claim_C1_chain_propagation :
    (allOkFrom NewSpreadsheet chainOps = true
      ∧ GetCellValue (runOps chainOps) "A1" = .ok 12)
    ∧ (∀ (s : Sheet) (roots order : List CellID), topSort s roots = .ok order →
        ∀ c ∈ order, ∀ d ∈ s.refersTo c,
          ∃ i j, i < j ∧ order.get? i = some d ∧ order.get? j = some c) := by
  constructor
  · exact ⟨by decide, by decide⟩
  · intro s roots order h c hc d hd
    have hord := topSort_ok_ordered h
    obtain ⟨j, hj⟩ := List.get?_of_mem hc
    have hdtake : d ∈ order.take j := hord j c hj d hd
    obtain ⟨i, hi⟩ := List.get?_of_mem hdtake
    have hij : i < j := by
      have hlen : i < (order.take j).length := by
        by_contra hge
        push_neg at hge
        rw [List.get?_eq_none.mpr hge] at hi
        cases hi
      have h2 : (order.take j).length ≤ j := by
        rw [List.length_take]
        exact min_le_left _ _
      omega
    refine ⟨i, j, hij, ?_, hj⟩
    rw [← List.get?_take hij]
    exact hi

theorem claim_C1_chain_propagation_witness :
    ∃ i j, i < j
      ∧ [(⟨0, 1⟩ : CellID), ⟨0, 0⟩].get? i = some ⟨0, 1⟩
      ∧ [(⟨0, 1⟩ : CellID), ⟨0, 0⟩].get? j = some ⟨0, 0⟩ :=
  claim_C1_chain_propagation.2 (runOps [("A1", .str "=A2")]) [⟨0, 0⟩] [⟨0, 1⟩, ⟨0, 0⟩]
    (by decide) ⟨0, 0⟩ (by decide) ⟨0, 1⟩ (by decide)

/-! ## Lemmas: characterising when the unanchored address regexp matches (C6) -/

theorem not_upper_of_digit {b : Char} (h : isDigitC b = true) : isUpperC b = false := by
  simp only [isDigitC, between, Bool.and_eq_true, decide_eq_true_eq] at h
  by_contra habs
  rw [Bool.not_eq_false] at habs
  simp only [isUpperC, between, Bool.and_eq_true, decide_eq_true_eq] at habs
  exact absurd (le_trans habs.1 h.2) (by decide)

theorem hasUDpair_cons_of (c : Char) (t : List Char) (h : hasUDpair t = true) :
    hasUDpair (c :: t) = true := by
  cases t with
  | nil => simp [hasUDpair] at h
  | cons b t2 =>
    unfold hasUDpair
    rw [h]
    simp

/-- If the maximal uppercase run of `l` is nonempty and is immediately
followed by a digit, then `l` has an adjacent uppercase-digit pair. -/
theorem hasUDpair_of_spans : ∀ l : List Char, l.takeWhile isUpperC ≠ [] →
    (l.dropWhile isUpperC).takeWhile isDigitC ≠ [] → hasUDpair l = true := by
  intro l
  induction l with
  | nil => intro h1 _; cases h1 rfl
  | cons c t ih =>
    intro h1 h2
    have hc : isUpperC c = true := by
      by_contra hcn
      rw [List.takeWhile_cons_of_neg hcn] at h1
      exact h1 rfl
    rw [List.dropWhile_cons_of_pos hc] at h2
    cases t with
    | nil => simp at h2
    | cons b t2 =>
      by_cases hb : isUpperC b = true
      · have ht : hasUDpair (b :: t2) = true := by
          apply ih
          · rw [List.takeWhile_cons_of_pos hb]
            simp
          · exact h2
        exact hasUDpair_cons_of c _ ht
      · rw [List.dropWhile_cons_of_neg (by simp [hb])] at h2
        have hbd : isDigitC b = true := by
          by_contra hbn
          rw [List.takeWhile_cons_of_neg (by simp [hbn])] at h2
          exact h2 rfl
        unfold hasUDpair
        rw [hc, hbd]
        simp

/-- Soundness: a regexp match produces an adjacent uppercase-digit pair. -/
theorem findCellMatch_some_pair : ∀ (l : List Char) (L D : List Char),
    findCellMatch l = some (L, D) → hasUDpair l = true := by
  intro l
  induction l with
  | nil => intro L D h; cases h
  | cons c rest ih =>
    intro L D h
    unfold findCellMatch at h
    by_cases hc : isUpperC c = true
    · rw [if_pos hc] at h
      dsimp only at h
      by_cases hD : ((c :: rest).dropWhile isUpperC).takeWhile isDigitC = []
      · rw [if_pos hD] at h
        exact hasUDpair_cons_of c rest (ih L D h)
      · apply hasUDpair_of_spans
        · rw [List.takeWhile_cons_of_pos hc]
          simp
        · exact hD
    · rw [if_neg hc] at h
      exact hasUDpair_cons_of c rest (ih L D h)

/-! ## Claim theorems: the address codec (C6, C7) -/

/-- Claim C6 is false as stated: the address "A1x" does not have the shape
`[A-Z]+[0-9]+` (trailing garbage), yet `ParseCellID` accepts it — the
regexp is unanchored, so it matches the embedded substring "A1" — and
`GetCellValue`/`SetCellValue` on it succeed likewise. -/
theorem claim_C6_counterexample :
    wellShapedB "A1x" = false
    ∧ ParseCellID "A1x" = .ok ⟨0, 0⟩
    ∧ GetCellValue NewSpreadsheet "A1x" = .ok 0
    ∧ opOk NewSpreadsheet ("A1x", .int 7) = true := by
  decide

/-- Claim C6 (amended): every address string containing no substring of
the shape `[A-Z]+[0-9]+` — equivalently (for contiguous substrings), no
uppercase letter immediately followed by a digit — fails with the
address-parse error. (Only this failure direction survives: the
counterexample shows the regexp is unanchored, so some strings without the
full shape are accepted; and acceptance is not guaranteed by a matching
substring either, since the digit group may exceed the 64-bit range that
`strconv.Atoi` enforces.) -/
theorem claim_C6_amended (s : String) (h : hasUDpair s.toList = false) :
    ParseCellID s = .error .parseCellID := by
  unfold ParseCellID
  cases hm : findCellMatch s.toList with
  | none => rfl
  | some x =>
    exfalso
    have := findCellMatch_some_pair s.toList x.1 x.2 (by rw [hm])
    rw [this] at h
    cases h

theorem claim_C6_amended_witness : ParseCellID "1a" = .error .parseCellID :=
  claim_C6_amended "1a" (by decide)

/-! ## Lemmas: decoding a fully well-formed address (C7) -/

theorem takeWhile_all {p : Char → Bool} : ∀ l : List Char, (∀ x ∈ l, p x = true) →
    l.takeWhile p = l := by
  intro l
  induction l with
  | nil => intro _; rfl
  | cons a t ih =>
    intro h
    rw [List.takeWhile_cons_of_pos (h a (by simp)), ih fun x hx => h x (by simp [hx])]

/-- Splitting `L ++ d :: D2` at the uppercase/digit boundary. -/
theorem spans_upper_append (L : List Char) (d : Char) (D2 : List Char)
    (hLu : ∀ x ∈ L, isUpperC x = true) (hd : isDigitC d = true) :
    (L ++ d :: D2).takeWhile isUpperC = L
    ∧ (L ++ d :: D2).dropWhile isUpperC = d :: D2 := by
  induction L with
  | nil =>
    constructor
    · rw [List.nil_append, List.takeWhile_cons_of_neg (by simp [not_upper_of_digit hd])]
    · rw [List.nil_append, List.dropWhile_cons_of_neg (by simp [not_upper_of_digit hd])]
  | cons a L2 ih =>
    have ha : isUpperC a = true := hLu a (by simp)
    have ih2 := ih fun x hx => hLu x (by simp [hx])
    constructor
    · rw [List.cons_append, List.takeWhile_cons_of_pos ha, ih2.1]
    · rw [List.cons_append, List.dropWhile_cons_of_pos ha, ih2.2]

/-- On a fully well-formed address the regexp matches the whole string,
letters as group 1 and digits as group 2. -/
theorem findCellMatch_wellformed (L : List Char) (d : Char) (D2 : List Char)
    (hL : L ≠ []) (hLu : ∀ x ∈ L, isUpperC x = true) (hd : isDigitC d = true)
    (hD2 : ∀ x ∈ D2, isDigitC x = true) :
    findCellMatch (L ++ d :: D2) = some (L, d :: D2) := by
  obtain ⟨hsp1, hsp2⟩ := spans_upper_append L d D2 hLu hd
  have hDspan : (d :: D2).takeWhile isDigitC = d :: D2 := by
    apply takeWhile_all
    intro x hx
    rcases List.mem_cons.mp hx with rfl | hx2
    · exact hd
    · exact hD2 x hx2
  cases L with
  | nil => cases hL rfl
  | cons c L2 =>
    have hc : isUpperC c = true := hLu c (by simp)
    rw [List.cons_append] at hsp1 hsp2 ⊢
    unfold findCellMatch
    rw [if_pos hc]
    dsimp only
    rw [hsp1, hsp2, hDspan]
    rw [if_neg (by simp)]

/-- Shifting the initial accumulator of the bijective base-26 fold. -/
theorem bij26_foldl_shift : ∀ (u : List Char) (a0 : Int),
    u.foldl (fun acc x => acc * 26 + ((x.toNat : Int) - ('A'.toNat : Int) + 1)) a0
      = a0 * 26 ^ u.length
        + u.foldl (fun acc x => acc * 26 + ((x.toNat : Int) - ('A'.toNat : Int) + 1)) 0 := by
  intro u
  induction u with
  | nil => intro a0; simp
  | cons x u2 ihu =>
    intro a0
    rw [List.foldl_cons, List.foldl_cons,
      ihu (a0 * 26 + ((x.toNat : Int) - ('A'.toNat : Int) + 1)),
      ihu (0 * 26 + ((x.toNat : Int) - ('A'.toNat : Int) + 1)), List.length_cons]
    ring

/-- Peeling the leading letter off a bijective base-26 numeral. -/
theorem bij26_cons (c : Char) (t : List Char) :
    bij26 (c :: t) = ((c.toNat : Int) - ('A'.toNat : Int) + 1) * 26 ^ t.length + bij26 t := by
  unfold bij26
  rw [List.foldl_cons, bij26_foldl_shift t (0 * 26 + ((c.toNat : Int) - ('A'.toNat : Int) + 1))]
  ring

/-- The value computed by `decodeRowExpr`'s reversed low-order-first fold
(without the 64-bit wrap), with general accumulators. -/
theorem decodeFold_reverse (l : List Char) : ∀ a b : Int,
    l.reverse.foldl
      (fun (p : Int × Int) c => (p.1 + ((c.toNat : Int) - ('A'.toNat : Int) + 1) * p.2, p.2 * 26))
      (a, b)
      = (a + bij26 l * b, b * 26 ^ l.length) := by
  induction l with
  | nil =>
    intro a b
    simp [bij26]
  | cons c t ih =>
    intro a b
    rw [List.reverse_cons, List.foldl_append, ih a b]
    rw [List.foldl_cons, List.foldl_nil]
    rw [bij26_cons, List.length_cons]
    simp only [Prod.mk.injEq]
    constructor
    · ring
    · ring

/-- An uppercase letter's code point lies in `65..90`. -/
theorem toNat_bounds_of_upper {c : Char} (h : isUpperC c = true) :
    65 ≤ c.toNat ∧ c.toNat ≤ 90 := by
  simp only [isUpperC, between, Bool.and_eq_true, decide_eq_true_eq] at h
  obtain ⟨h1, h2⟩ := h
  rw [Char.le_def] at h1 h2
  rw [UInt32.le_def] at h1 h2
  rw [BitVec.le_def] at h1 h2
  exact ⟨h1, h2⟩

/-- `wrap64` is the identity on values that fit a 64-bit signed integer. -/
theorem wrap64_eq_self {n : Int} (h1 : -9223372036854775808 ≤ n)
    (h2 : n ≤ 9223372036854775807) : wrap64 n = n := by
  unfold wrap64
  rw [Int.emod_eq_of_lt (by omega) (by omega)]
  omega

/-- Closed form relating `bij26Max` to powers of 26. -/
theorem pow_bij26Max : ∀ k : Nat, 25 * bij26Max k + 26 = 26 ^ (k + 1) := by
  intro k
  induction k with
  | zero => norm_num [bij26Max]
  | succ n ih =>
    show 25 * (26 * bij26Max n + 26) + 26 = 26 ^ (n + 1 + 1)
    have hps : (26:Int) ^ (n + 1 + 1) = 26 ^ (n + 1) * 26 := by ring
    rw [hps, ← ih]
    ring

theorem bij26Max_nonneg : ∀ k : Nat, 0 ≤ bij26Max k := by
  intro k
  induction k with
  | zero => norm_num [bij26Max]
  | succ n ih =>
    show 0 ≤ 26 * bij26Max n + 26
    linarith

theorem bij26Max_mono {k n : Nat} (h : k ≤ n) : bij26Max k ≤ bij26Max n := by
  have h1 := pow_bij26Max k
  have h2 := pow_bij26Max n
  have hp : (26:Int) ^ (k + 1) ≤ 26 ^ (n + 1) :=
    pow_le_pow_right (by norm_num) (by omega)
  linarith

/-- A letter run's bijective base-26 value is nonnegative and at most
`bij26Max` of its length. -/
theorem bij26_bounds : ∀ L : List Char, (∀ c ∈ L, isUpperC c = true) →
    0 ≤ bij26 L ∧ bij26 L ≤ bij26Max L.length := by
  intro L
  induction L with
  | nil => intro _; norm_num [bij26, bij26Max]
  | cons c t ih =>
    intro h
    obtain ⟨ht0, ht1⟩ := ih fun x hx => h x (by simp [hx])
    obtain ⟨h65, h90⟩ := toNat_bounds_of_upper (h c (by simp))
    have hA : 'A'.toNat = 65 := rfl
    have hd1 : (1:Int) ≤ (c.toNat : Int) - ('A'.toNat : Int) + 1 := by omega
    have hd26 : (c.toNat : Int) - ('A'.toNat : Int) + 1 ≤ 26 := by omega
    have hp : (0:Int) < 26 ^ t.length := pow_pos (by norm_num) _
    rw [bij26_cons, List.length_cons]
    have hlow : (1:Int) * 26 ^ t.length
        ≤ ((c.toNat : Int) - ('A'.toNat : Int) + 1) * 26 ^ t.length :=
      mul_le_mul_of_nonneg_right hd1 (le_of_lt hp)
    have hhigh : ((c.toNat : Int) - ('A'.toNat : Int) + 1) * 26 ^ t.length
        ≤ 26 * 26 ^ t.length :=
      mul_le_mul_of_nonneg_right hd26 (le_of_lt hp)
    have hq := pow_bij26Max t.length
    have hps : (26:Int) ^ (t.length + 1) = 26 * 26 ^ t.length := by ring
    have h26P : (26:Int) * 26 ^ t.length = 25 * bij26Max t.length + 26 := by
      rw [← hps]
      exact hq.symm
    show _ ∧ _ ≤ 26 * bij26Max t.length + 26
    constructor
    · linarith
    · linarith

/-- As long as every intermediate value fits a 64-bit signed integer, the
wrapping fold of `decodeRowExpr` agrees with the exact integer fold. The
bounds are phrased over the (already reversed) list being folded. -/
theorem wrapFold_eq_plain : ∀ (m : List Char) (a b : Int),
    (∀ c ∈ m, 1 ≤ (c.toNat : Int) - ('A'.toNat : Int) + 1
      ∧ (c.toNat : Int) - ('A'.toNat : Int) + 1 ≤ 26) →
    0 ≤ a → 1 ≤ b →
    a + bij26Max m.length * b ≤ 9223372036854775807 →
    b * 26 ^ m.length ≤ 9223372036854775807 →
    m.foldl
      (fun (p : Int × Int) c =>
        (wrap64 (p.1 + wrap64 (((c.toNat : Int) - ('A'.toNat : Int) + 1) * p.2)),
          wrap64 (p.2 * 26)))
      (a, b)
    = m.foldl
      (fun (p : Int × Int) c => (p.1 + ((c.toNat : Int) - ('A'.toNat : Int) + 1) * p.2, p.2 * 26))
      (a, b) := by
  intro m
  induction m with
  | nil =>
    intro a b _ _ _ _ _
    rfl
  | cons c t ih =>
    intro a b hdig ha hb hab hb26
    obtain ⟨hd1, hd26⟩ := hdig c (by simp)
    have hbm0 : 0 ≤ bij26Max t.length := bij26Max_nonneg t.length
    rw [List.length_cons] at hab hb26
    have hab2 : a + (26 * bij26Max t.length + 26) * b ≤ 9223372036854775807 := hab
    rw [pow_succ] at hb26
    have hp1 : (1:Int) ≤ 26 ^ t.length := by
      simpa using Int.lt_iff_add_one_le.mp (pow_pos (by norm_num) t.length)
    have hb0 : (0:Int) ≤ b := by linarith
    have hq1 : ((c.toNat : Int) - ('A'.toNat : Int) + 1) * b ≤ 26 * b :=
      mul_le_mul_of_nonneg_right hd26 hb0
    have hq2 : 26 * b ≤ (26 * bij26Max t.length + 26) * b :=
      mul_le_mul_of_nonneg_right (by linarith) hb0
    have hq3 : (1:Int) ≤ ((c.toNat : Int) - ('A'.toNat : Int) + 1) * b := by nlinarith
    have hw1 : wrap64 (((c.toNat : Int) - ('A'.toNat : Int) + 1) * b)
        = ((c.toNat : Int) - ('A'.toNat : Int) + 1) * b :=
      wrap64_eq_self (by linarith) (by linarith)
    have hw2 : wrap64 (a + ((c.toNat : Int) - ('A'.toNat : Int) + 1) * b)
        = a + ((c.toNat : Int) - ('A'.toNat : Int) + 1) * b :=
      wrap64_eq_self (by linarith) (by linarith)
    have hq4 : (1:Int) * 26 ≤ 26 ^ t.length * 26 :=
      mul_le_mul_of_nonneg_right hp1 (by norm_num)
    have hq5 : b * 26 ≤ b * (26 ^ t.length * 26) :=
      mul_le_mul_of_nonneg_left (by linarith) hb0
    have hw3 : wrap64 (b * 26) = b * 26 :=
      wrap64_eq_self (by linarith) (by linarith)
    rw [List.foldl_cons, List.foldl_cons]
    dsimp only
    rw [hw1, hw2, hw3]
    apply ih
    · exact fun x hx => hdig x (by simp [hx])
    · linarith
    · linarith
    · linarith [hq1, hab2]
    · linarith [hb26]

/-- On runs of at most 13 uppercase letters the wrapping decoder computes
the exact bijective base-26 value minus one: all intermediates fit int64. -/
theorem decodeRowExpr_eq_bij26 (L : List Char) (hLu : ∀ x ∈ L, isUpperC x = true)
    (hlen : L.length ≤ 13) :
    decodeRowExpr L = .ok (bij26 L - 1) := by
  have hMbound : bij26Max L.length ≤ 9223372036854775807 :=
    le_trans (bij26Max_mono hlen) (by decide)
  have hpow : (26:Int) ^ L.length ≤ 9223372036854775807 :=
    le_trans (pow_le_pow_right (by norm_num) hlen) (by norm_num)
  have hdig : ∀ c ∈ L.reverse, 1 ≤ (c.toNat : Int) - ('A'.toNat : Int) + 1
      ∧ (c.toNat : Int) - ('A'.toNat : Int) + 1 ≤ 26 := by
    intro c hc
    obtain ⟨h65, h90⟩ := toNat_bounds_of_upper (hLu c (List.mem_reverse.mp hc))
    have hA : 'A'.toNat = 65 := rfl
    constructor
    · omega
    · omega
  unfold decodeRowExpr
  rw [if_pos (show (L.all fun c => between c 'A' 'Z') = true from
    List.all_eq_true.mpr fun x hx => hLu x hx)]
  rw [wrapFold_eq_plain L.reverse 0 1 hdig (by norm_num) (by norm_num)
    (by rw [List.length_reverse]; linarith)
    (by rw [List.length_reverse]; linarith)]
  rw [decodeFold_reverse L 0 1]
  dsimp only
  obtain ⟨hb0, hb1⟩ := bij26_bounds L hLu
  have hw : wrap64 (0 + bij26 L * 1 - 1) = bij26 L - 1 := by
    rw [show (0 + bij26 L * 1 - 1) = bij26 L - 1 from by ring]
    exact wrap64_eq_self (by linarith) (by linarith)
  rw [hw]

/-- On a nonempty all-digit run whose decimal value fits int64, `atoi`
succeeds with that value. -/
theorem atoi_eq_decVal (D : List Char) (hD : D ≠ []) (hDd : ∀ x ∈ D, isDigitC x = true)
    (hval : decVal D ≤ 9223372036854775807) :
    atoi D = some (decVal D) := by
  have hval2 : D.foldl (fun acc c => acc * 10 + ((c.toNat : Int) - ('0'.toNat : Int))) 0
      ≤ 9223372036854775807 := hval
  unfold atoi
  rw [if_pos (by simp [hD, List.all_eq_true.mpr hDd])]
  rw [if_pos hval2]
  rfl

/-- Counterexample to C7 as stated: "A99999999999999999999999" is one
uppercase letter followed by a digit run, yet `ParseCellID` rejects it —
`strconv.Atoi` fails with a range error on the 23-digit column — instead of
returning the claimed column index; and on the well-shaped 16-character
address of 15 `A`s followed by `1`, the row returned is not the bijective
base-26 value minus one, because `decodeRowExpr`'s unchecked 64-bit
arithmetic wraps (the source's own TODO). -/
theorem claim_C7_counterexample :
    ("A99999999999999999999999").toList = ['A'] ++ List.replicate 23 '9'
    ∧ (∀ x ∈ ['A'], isUpperC x = true)
    ∧ (∀ x ∈ List.replicate 23 '9', isDigitC x = true)
    ∧ ParseCellID "A99999999999999999999999" = .error .parseCellID
    ∧ (String.mk (List.replicate 15 'A' ++ ['1'])).toList
        = List.replicate 15 'A' ++ ['1']
    ∧ (∀ x ∈ List.replicate 15 'A', isUpperC x = true)
    ∧ ParseCellID (String.mk (List.replicate 15 'A' ++ ['1']))
        ≠ .ok ⟨bij26 (List.replicate 15 'A') - 1, decVal ['1'] - 1⟩ := by
  refine ⟨by decide, by decide, by decide, by decide, by decide, by decide, by decide⟩

/-- Claim C7 (amended): on a well-formed address — a nonempty run `L` of at
most 13 uppercase letters followed by a nonempty digit run `D` whose decimal
value fits a 64-bit signed integer — `ParseCellID` returns the CellID whose
row is the bijective base-26 value of `L` minus one and whose column is the
decimal value of `D` minus one. (Beyond these bounds the code diverges from
the naive reading: `strconv.Atoi` range-errors on larger columns, and
`decodeRowExpr`'s unchecked int64 arithmetic wraps on longer rows.) -/
theorem claim_C7_address_decoding (L D : List Char)
    (hL : L ≠ []) (hLu : ∀ x ∈ L, isUpperC x = true) (hlen : L.length ≤ 13)
    (hD : D ≠ []) (hDd : ∀ x ∈ D, isDigitC x = true)
    (hDval : decVal D ≤ 9223372036854775807) :
    ParseCellID (String.mk (L ++ D)) = .ok ⟨bij26 L - 1, decVal D - 1⟩ := by
  cases D with
  | nil => cases hD rfl
  | cons d D2 =>
    have hm := findCellMatch_wellformed L d D2 hL hLu (hDd d (by simp))
      fun x hx => hDd x (by simp [hx])
    unfold ParseCellID
    rw [show (String.mk (L ++ d :: D2)).toList = L ++ d :: D2 from rfl, hm]
    dsimp only
    rw [decodeRowExpr_eq_bij26 L hLu hlen]
    dsimp only
    rw [atoi_eq_decVal (d :: D2) (by simp) hDd hDval]

/-- Witness: "AB32" decodes to row 27, column 31, as the spec's example
requires. -/
theorem claim_C7_address_decoding_witness : ParseCellID "AB32" = .ok ⟨27, 31⟩ := by
  have h := claim_C7_address_decoding ['A', 'B'] ['3', '2'] (by decide) (by decide)
    (by decide) (by decide) (by decide) (by decide)
  have hs : String.mk (['A', 'B'] ++ ['3', '2']) = "AB32" := by decide
  have hc : (⟨bij26 ['A', 'B'] - 1, decVal ['3', '2'] - 1⟩ : CellID) = ⟨27, 31⟩ := by decide
  rw [hs, hc] at h
  exact h

end Spreadsheets
